import Mathlib

/-!
BCRS and ELL sparse formats of `blocked.c`.

A shallow embedding of `src/src/blocked.c`: the two builders `CreateBCRS` and
`CreateELL`, their helpers `countBlocks` and `compute_max_entries_per_row`, and
the two kernels `MultiplyBCRS` and `MultiplyELL`.

Conventions of the embedding.

* `double` is an arbitrary type `α` carrying `0`, `+`, `*` and a decidable
  equality; the theorems about products ask for the semiring laws only where
  they use them, so they hold over `ℤ`, `ℚ` or `ℝ` (exact arithmetic).
* A C array is a `List`.  `a[i] = v` is `a.set i v` and a read `a[i]` is
  `a.getD i d`; a store past the end of the buffer (undefined in C) leaves the
  list unchanged, and a load past the end yields the default `d`.  A theorem
  about the entries `MultiplyBCRS` leaves in `r` therefore asks for an output
  buffer of at least `max(nrows, ncols)` cells, the ones line 102 clears and
  line 116 stores to.
* `malloc(n * sizeof ..)` is a list of `n` cells; their content, indeterminate
  in C, is `0`, and every cell a theorem speaks of is overwritten by the code.
* `int` counters and sizes are `Nat`: every counter of the file starts at `0`,
  only counts up and never exceeds the number of cells of the grid, which is
  taken to fit an `int`; the column entries of an ELL row are `Int` because of
  the sentinel `-1`.
* `double** mel` is a function of the row and the column.
* `#pragma omp parallel for` over the rows is the sequential loop: an iteration
  writes `r[i]` only and reads nothing another iteration writes.
* The kernels return nothing and test no subscript; `MultiplyBCRS_traced` and
  `MultiplyELL_traced` are the same loops that also list the subscripts used,
  so that statements about loads and stores are statements about the code.
-/

namespace Blocked

set_option linter.unusedSectionVars false
set_option linter.unusedVariables false

/-! ## Data model -/

/-- Modelled from the spec: the record `MATRIX` of the absent header `blocked.h`,
with the fields `blocked.c` reads: the row count, the column count, the declared
number of nonzero cells and the grid. -/
structure MATRIX (α : Type) where
  nrows : Nat
  ncols : Nat
  nnz : Nat
  mel : Nat → Nat → α

/-- Modelled from the spec: the record `BCRS` of the absent header `blocked.h`,
with the fields `CreateBCRS` fills (lines 72-79). -/
structure BCRS (α : Type) where
  colInd : List Nat
  rowPtr : List Nat
  value : List α
  nnzPtr : List Nat
  nrows : Nat
  ncols : Nat
  nnz : Nat
  nblocks : Nat

/-- Modelled from the spec: the record `ELL` of the absent header `blocked.h`,
with the fields `CreateELL` fills (lines 193-198). -/
structure ELL (α : Type) where
  values : List (List α)
  indices : List (List Int)
  nnz : Nat
  nrows : Nat
  ncols : Nat
  max_entries_per_row : Nat

/-- A dense matrix given by its rows, for concrete inputs; a cell outside the
rows reads `0`. -/
def MATRIX.ofRows {α : Type} [Zero α] (nrows ncols nnz : Nat) (rows : List (List α)) :
    MATRIX α :=
  { nrows := nrows, ncols := ncols, nnz := nnz,
    mel := fun i j => (rows.getD i []).getD j 0 }

/-! ## BCRS builder -/

section Builders

variable {α : Type} [Zero α] [DecidableEq α]

/-- One iteration of the inner loop of `countBlocks` (lines 19-26). -/
def countBlocksCell (my_m : MATRIX α) (i : Nat) (nblocks j : Nat) : Nat :=
  if my_m.mel i j ≠ 0 then
    if j = 0 then nblocks + 1
    else if j ≠ 0 ∧ my_m.mel i (j - 1) = 0 then nblocks + 1
    else nblocks
  else nblocks

/-- The function `countBlocks` (lines 11-30). -/
def countBlocks (my_m : MATRIX α) : Nat :=
  (List.range my_m.nrows).foldl
    (fun nblocks i => (List.range my_m.ncols).foldl (countBlocksCell my_m i) nblocks) 0

/-- The variables the fill pass of `CreateBCRS` updates. -/
structure FillState (α : Type) where
  colInd : List Nat
  rowPtr : List Nat
  nnzPtr : List Nat
  value : List α
  block_number : Nat
  index : Nat

/-- One iteration of the inner loop of the fill pass (lines 58-66). -/
def fillCell (my_m : MATRIX α) (k : Nat) (s : FillState α) (jj : Nat) : FillState α :=
  if my_m.mel k jj ≠ 0 then
    let s1 : FillState α :=
      if jj = 0 ∨ (jj ≠ 0 ∧ my_m.mel k (jj - 1) = 0) then
        { s with
          colInd := s.colInd.set s.block_number jj
          nnzPtr := s.nnzPtr.set s.block_number s.index
          block_number := s.block_number + 1 }
      else s
    { s1 with
      value := s1.value.set s1.index (my_m.mel k jj)
      index := s1.index + 1 }
  else s

/-- One iteration of the outer loop of the fill pass (lines 57-68). -/
def fillRow (my_m : MATRIX α) (s : FillState α) (k : Nat) : FillState α :=
  let s1 := (List.range my_m.ncols).foldl (fillCell my_m k) s
  { s1 with rowPtr := s1.rowPtr.set (k + 1) s1.block_number }

/-- The four buffers after the `malloc`s and the loop that clears `rowPtr`
(lines 45-54). -/
def fillInit (my_m : MATRIX α) (nblocks : Nat) : FillState α :=
  { colInd := List.replicate nblocks 0
    rowPtr := (List.range (my_m.nrows + 1)).foldl (fun rowPtr i => rowPtr.set i 0)
      (List.replicate (my_m.nrows + 1) 0)
    nnzPtr := List.replicate (nblocks + 1) 0
    value := List.replicate my_m.nnz 0
    block_number := 0
    index := 0 }

/-- The state of `CreateBCRS` when the fill loop (lines 56-69) ends. -/
def fillBCRS (my_m : MATRIX α) : FillState α :=
  (List.range my_m.nrows).foldl (fillRow my_m) (fillInit my_m (countBlocks my_m))

/-- The function `CreateBCRS` (lines 33-82). -/
def CreateBCRS (my_m : MATRIX α) : BCRS α :=
  let nblocks := countBlocks my_m
  let s := fillBCRS my_m
  { colInd := s.colInd
    rowPtr := s.rowPtr
    value := s.value
    nnzPtr := s.nnzPtr.set nblocks my_m.nnz
    nrows := my_m.nrows
    ncols := my_m.ncols
    nnz := my_m.nnz
    nblocks := nblocks }

/-! ## ELL builder -/

/-- Modelled from the spec: the macro `max` of an absent header, the larger of
its two arguments (the width is "the maximum, over all rows, of that row's
nonzero count"). -/
def maxOf (a b : Nat) : Nat := if a > b then a else b

/-- The inner loop of `compute_max_entries_per_row` (lines 139-144): the number
of nonzero cells of row `i`. -/
def rowEntries (m : MATRIX α) (i : Nat) : Nat :=
  (List.range m.ncols).foldl (fun current j => if m.mel i j ≠ 0 then current + 1 else current) 0

/-- The function `compute_max_entries_per_row` (lines 132-149). -/
def compute_max_entries_per_row (m : MATRIX α) : Nat :=
  (List.range m.nrows).foldl
    (fun max_entries_per_row i => maxOf (rowEntries m i) max_entries_per_row) 0

/-- The store `a[i][j] = v` into an array of row pointers. -/
def set2 {β : Type} (a : List (List β)) (i j : Nat) (v : β) : List (List β) :=
  a.set i ((a.getD i []).set j v)

/-- The two grids of `CreateELL` with the cursor `jj` of the current row. -/
structure EllState (α : Type) where
  values : List (List α)
  indices : List (List Int)
  jj : Nat

/-- The loop that clears both grids (lines 175-180). -/
def ellClear (nrows max_entries_per_row : Nat) (s : EllState α) : EllState α :=
  (List.range nrows).foldl
    (fun s i => (List.range max_entries_per_row).foldl
      (fun s jj => { s with values := set2 s.values i jj 0, indices := set2 s.indices i jj (-1) })
      s) s

/-- One iteration of the inner loop of the fill of `CreateELL` (lines 185-189). -/
def ellCell (m : MATRIX α) (i : Nat) (s : EllState α) (j : Nat) : EllState α :=
  if m.mel i j ≠ 0 then
    { values := set2 s.values i s.jj (m.mel i j)
      indices := set2 s.indices i s.jj (j : Int)
      jj := s.jj + 1 }
  else s

/-- One iteration of the outer loop of the fill of `CreateELL` (lines 183-190). -/
def ellRow (m : MATRIX α) (s : EllState α) (i : Nat) : EllState α :=
  (List.range m.ncols).foldl (ellCell m i) { s with jj := 0 }

/-- The state of `CreateELL` when its fill loop (lines 182-191) ends. -/
def fillELL (m : MATRIX α) : EllState α :=
  let max_entries_per_row := compute_max_entries_per_row m
  let s0 : EllState α :=
    { values := List.replicate m.nrows (List.replicate max_entries_per_row 0)
      indices := List.replicate m.nrows (List.replicate max_entries_per_row 0)
      jj := 0 }
  (List.range m.nrows).foldl (ellRow m) (ellClear m.nrows max_entries_per_row s0)

/-- The function `CreateELL` (lines 152-201). -/
def CreateELL (m : MATRIX α) : ELL α :=
  let s := fillELL m
  { values := s.values
    indices := s.indices
    nnz := m.nnz
    nrows := m.nrows
    ncols := m.ncols
    max_entries_per_row := compute_max_entries_per_row m }

end Builders

/-! ## Kernels -/

section Kernels

variable {α : Type} [Zero α] [Add α] [Mul α]

/-- The call `memset(r, 0, n * sizeof(double))`, for a buffer `r` of at least `n`
cells; on a shorter buffer the call writes past its end, which the list does not
show. -/
def memsetZero (r : List α) (n : Nat) : List α :=
  (List.range n).foldl (fun r i => r.set i 0) r

/-- The innermost loop of `MultiplyBCRS` (lines 109-114) for the block `j`; the
state is the pair of `t` and `tt`. -/
def blockBCRS (c : BCRS α) (x : List α) (t : α) (j : Nat) : α :=
  let startCol := c.colInd.getD j 0
  ((List.range' (c.nnzPtr.getD j 0) (c.nnzPtr.getD (j + 1) 0 - c.nnzPtr.getD j 0)).foldl
    (fun (p : α × Nat) k => (p.1 + c.value.getD k 0 * x.getD (startCol + p.2) 0, p.2 + 1))
    (t, 0)).1

/-- The value `t` that `MultiplyBCRS` stores in `r[i]` (lines 106-115). -/
def rowBCRS (c : BCRS α) (x : List α) (i : Nat) : α :=
  (List.range' (c.rowPtr.getD i 0) (c.rowPtr.getD (i + 1) 0 - c.rowPtr.getD i 0)).foldl
    (blockBCRS c x) 0

/-- The function `MultiplyBCRS` (lines 89-118); the result is the buffer `r`
after the call. -/
def MultiplyBCRS (c : BCRS α) (x : List α) (r : List α) : List α :=
  (List.range c.nrows).foldl (fun r i => r.set i (rowBCRS c x i)) (memsetZero r c.ncols)

/-- The value `t` that `MultiplyELL` stores in `r[i]` (lines 223-228). -/
def rowELL (e : ELL α) (x : List α) (i : Nat) : α :=
  (List.range e.max_entries_per_row).foldl
    (fun t j =>
      if (e.indices.getD i []).getD j 0 ≥ 0 then
        t + (e.values.getD i []).getD j 0 * x.getD ((e.indices.getD i []).getD j 0).toNat 0
      else t) 0

/-- The function `MultiplyELL` (lines 210-231); the result is the buffer `r`
after the call. -/
def MultiplyELL (e : ELL α) (x : List α) (r : List α) : List α :=
  (List.range e.nrows).foldl (fun r i => r.set i (rowELL e x i)) (memsetZero r e.nrows)

end Kernels

/-! ## Specification-level notions -/

section SpecDefs

variable {α : Type} [Zero α] [DecidableEq α]

/-- The cells of the grid read in row-major order (rows top to bottom, columns
left to right). -/
def cellsRowMajor (M : MATRIX α) : List α :=
  (List.range M.nrows).flatMap (fun i => (List.range M.ncols).map (M.mel i))

/-- The nonzero cells of the grid in row-major order. -/
def nonzeroCells (M : MATRIX α) : List α :=
  (cellsRowMajor M).filter (fun v => v ≠ 0)

/-- The true number of nonzero cells of the grid. -/
def trueNnz (M : MATRIX α) : Nat :=
  (cellsRowMajor M).countP (fun v => v ≠ 0)

/-- The nonzero columns of row `i` among the columns below `n`, left to right. -/
def nzCols (M : MATRIX α) (i n : Nat) : List Nat :=
  (List.range n).filter (fun j => M.mel i j ≠ 0)

/-- The number of nonzero cells of row `i` in the columns below `c`. -/
def nzCount (M : MATRIX α) (i c : Nat) : Nat :=
  (List.range c).countP (fun j => M.mel i j ≠ 0)

/-- The number of nonzero cells of row `i`, written `count(i)` in the
specification. -/
def rowCount (M : MATRIX α) (i : Nat) : Nat := nzCount M i M.ncols

/-- The number of nonzero cells in the rows above row `k`. -/
def nzBefore (M : MATRIX α) (k : Nat) : Nat :=
  ((List.range k).map (rowCount M)).sum

/-- The number of nonzero cells that precede the cell `(i, c)` in row-major
order. -/
def nzPreceding (M : MATRIX α) (i c : Nat) : Nat := nzBefore M i + nzCount M i c

/-- A maximal run of consecutive nonzero columns of row `i`: it starts at column
`c`, has `L ≥ 1` cells, all nonzero, and the cell on either side is zero or
absent. -/
def IsMaximalRun (M : MATRIX α) (i c L : Nat) : Prop :=
  1 ≤ L ∧ c + L ≤ M.ncols ∧ (∀ t, t < L → M.mel i (c + t) ≠ 0) ∧
    (c = 0 ∨ M.mel i (c - 1) = 0) ∧ (c + L = M.ncols ∨ M.mel i (c + L) = 0)

instance (M : MATRIX α) (i c L : Nat) : Decidable (IsMaximalRun M i c L) := by
  unfold IsMaximalRun; infer_instance

/-- The number of maximal runs of consecutive nonzero columns in row `i`. -/
def maximalRunCount (M : MATRIX α) (i : Nat) : Nat :=
  ((Finset.range M.ncols ×ˢ Finset.range (M.ncols + 1)).filter
    (fun p => IsMaximalRun M i p.1 p.2)).card

/-- The columns below `n` at which a block of row `i` starts: a nonzero cell in
the first column or right after a zero. -/
def startCols (M : MATRIX α) (i n : Nat) : List Nat :=
  (List.range n).filter (fun j => M.mel i j ≠ 0 ∧ (j = 0 ∨ M.mel i (j - 1) = 0))

/-- The number of blocks in the rows above row `k`. -/
def blocksBefore (M : MATRIX α) (k : Nat) : Nat :=
  ((List.range k).map (fun i => (startCols M i M.ncols).length)).sum

/-- The start columns of the blocks in the rows above row `k`, in row-major
order. -/
def allStarts (M : MATRIX α) (k : Nat) : List Nat :=
  (List.range k).flatMap (fun i => startCols M i M.ncols)

/-- For every block in the rows above row `k`, the number of nonzero cells that
precede its first cell. -/
def allPtrs (M : MATRIX α) (k : Nat) : List Nat :=
  (List.range k).flatMap (fun i => (startCols M i M.ncols).map (nzPreceding M i))

/-- The nonzero cells in the rows above row `k`, in row-major order. -/
def allVals (M : MATRIX α) (k : Nat) : List α :=
  (List.range k).flatMap (fun i => (nzCols M i M.ncols).map (M.mel i))

/-- The runs `(start, length)` of nonzero cells of row `i` among the columns
below `n`, the last run first: a nonzero cell in the first column or right after
a zero opens a run, any other nonzero cell lengthens the last run. -/
def runsRev (M : MATRIX α) (i : Nat) : Nat → List (Nat × Nat)
  | 0 => []
  | n + 1 =>
    if M.mel i n = 0 then runsRev M i n
    else if n = 0 ∨ M.mel i (n - 1) = 0 then (n, 1) :: runsRev M i n
    else
      match runsRev M i n with
      | [] => []
      | (c, L) :: rest => (c, L + 1) :: rest

/-- The runs `(start, length)` of nonzero cells of row `i`, left to right. -/
def runs (M : MATRIX α) (i : Nat) : List (Nat × Nat) := (runsRev M i M.ncols).reverse

/-- The lengths of the runs in the rows above row `k`, in row-major order. -/
def allLens (M : MATRIX α) (k : Nat) : List Nat :=
  (List.range k).flatMap (fun i => (runs M i).map Prod.snd)

/-- The successive stores `a[i] = l[0]`, `a[i+1] = l[1]`, and so on. -/
def writeSeq {β : Type} : List β → Nat → List β → List β
  | a, _, [] => a
  | a, i, v :: l => writeSeq (a.set i v) (i + 1) l

/-- The running sums of a list from `s`: `[s, s + l[0], s + l[0] + l[1], ...]`,
one for every element of the list. -/
def offsets : Nat → List Nat → List Nat
  | _, [] => []
  | s, L :: l => s :: offsets (s + L) l

/-- What the induction over the columns carries about `runsRev M i n`. -/
structure RunsInv (M : MATRIX α) (i n : Nat) : Prop where
  starts : ((runsRev M i n).reverse).map Prod.fst = startCols M i n
  cover : ((runsRev M i n).reverse).flatMap (fun r => List.range' r.1 r.2) = nzCols M i n
  last : 0 < n → M.mel i (n - 1) ≠ 0 →
    ∃ c L rest, runsRev M i n = (c, L) :: rest ∧ c + L = n
  pos : ∀ r ∈ runsRev M i n, 1 ≤ r.2
  closedTail : ∀ r ∈ (runsRev M i n).tail, r.1 + r.2 < n ∧ M.mel i (r.1 + r.2) = 0
  head : ∀ r ∈ (runsRev M i n).head?,
    (r.1 + r.2 = n ∧ 0 < n ∧ M.mel i (n - 1) ≠ 0) ∨ (r.1 + r.2 < n ∧ M.mel i (r.1 + r.2) = 0)
  chain : ((runsRev M i n).reverse).map (fun r => nzCount M i r.1)
    = offsets 0 (((runsRev M i n).reverse).map Prod.snd)

end SpecDefs

section KernelSpec

variable {α : Type} [Zero α] [Add α] [Mul α] [DecidableEq α]

/-- The products of the nonzero cells of row `i` with the entries of `x`, added
from the left in column order, from `0`. -/
def sparseRow (M : MATRIX α) (x : List α) (i : Nat) : α :=
  (nzCols M i M.ncols).foldl (fun t j => t + M.mel i j * x.getD j 0) 0

end KernelSpec

/-! ## States inside the builders, and the identity matrix -/

section Inside

variable {α : Type} [Zero α] [DecidableEq α]

/-- The state of the fill pass of `CreateBCRS` (lines 56-69) when it reaches the
cell `(k, jj)`: the rows above `k` are done, and so are the columns left of `jj`
in row `k`. -/
def fillBefore (my_m : MATRIX α) (k jj : Nat) : FillState α :=
  (List.range jj).foldl (fillCell my_m k)
    ((List.range k).foldl (fillRow my_m) (fillInit my_m (countBlocks my_m)))

/-- The two grids of `CreateELL` after the `malloc`s and the clearing loop
(lines 164-180). -/
def ellCleared (m : MATRIX α) : EllState α :=
  ellClear m.nrows (compute_max_entries_per_row m)
    { values := List.replicate m.nrows (List.replicate (compute_max_entries_per_row m) 0)
      indices := List.replicate m.nrows (List.replicate (compute_max_entries_per_row m) 0)
      jj := 0 }

/-- The state of the fill loop of `CreateELL` (lines 182-191) when it reaches the
cell `(i, j)`: the rows above `i` are done, `jj` was reset for row `i`, and the
columns left of `j` in row `i` are done. -/
def ellBefore (m : MATRIX α) (i j : Nat) : EllState α :=
  (List.range j).foldl (ellCell m i)
    { (List.range i).foldl (ellRow m) (ellCleared m) with jj := 0 }

/-- The `n`-by-`n` identity matrix, with the declared `nnz = n`. -/
def identityMatrix (α : Type) [Zero α] [One α] (n : Nat) : MATRIX α :=
  { nrows := n, ncols := n, nnz := n, mel := fun i j => if i = j then 1 else 0 }

end Inside

/-! ## The kernels with the list of their array accesses -/

/-- The buffers `MultiplyBCRS` loads from or stores to. -/
inductive Buf where
  | rowPtr
  | colInd
  | nnzPtr
  | value
  | x
  | r
  deriving DecidableEq

section Traced

variable {α : Type} [Zero α] [Add α] [Mul α]

/-- The number of cells of each buffer of a call `MultiplyBCRS(c, x, r)`. -/
def bufSize (c : BCRS α) (x r : List α) : Buf → Nat
  | Buf.rowPtr => c.rowPtr.length
  | Buf.colInd => c.colInd.length
  | Buf.nnzPtr => c.nnzPtr.length
  | Buf.value => c.value.length
  | Buf.x => x.length
  | Buf.r => r.length

/-- The loop over the blocks of `MultiplyBCRS` (lines 108-114) for the block `j`,
as `blockBCRS`, with every subscript it uses appended to the list of accesses:
`colInd[j]`, `nnzPtr[j]`, `nnzPtr[j+1]`, then `value[k]` and `x[startCol+tt]` for
every `k`. -/
def blockBCRS_traced (c : BCRS α) (x : List α) (s : α × List (Buf × Nat)) (j : Nat) :
    α × List (Buf × Nat) :=
  let startCol := c.colInd.getD j 0
  let q := (List.range' (c.nnzPtr.getD j 0) (c.nnzPtr.getD (j + 1) 0 - c.nnzPtr.getD j 0)).foldl
    (fun (q : α × Nat × List (Buf × Nat)) k =>
      (q.1 + c.value.getD k 0 * x.getD (startCol + q.2.1) 0, q.2.1 + 1,
        q.2.2 ++ [(Buf.value, k), (Buf.x, startCol + q.2.1)]))
    (s.1, 0, s.2 ++ [(Buf.colInd, j), (Buf.nnzPtr, j), (Buf.nnzPtr, j + 1)])
  (q.1, q.2.2)

/-- The body of the loop over the rows of `MultiplyBCRS` (lines 106-116) without
the store, as `rowBCRS`, with the accesses `rowPtr[i]` and `rowPtr[i+1]` and
those of the blocks. -/
def rowBCRS_traced (c : BCRS α) (x : List α) (acc : List (Buf × Nat)) (i : Nat) :
    α × List (Buf × Nat) :=
  (List.range' (c.rowPtr.getD i 0) (c.rowPtr.getD (i + 1) 0 - c.rowPtr.getD i 0)).foldl
    (blockBCRS_traced c x) (0, acc ++ [(Buf.rowPtr, i), (Buf.rowPtr, i + 1)])

/-- The function `MultiplyBCRS` (lines 89-118) with the list of the accesses it
makes: the `ncols` cells of `r` that `memset` clears, then row by row the
accesses of the row and the store `r[i] = t`. -/
def MultiplyBCRS_traced (c : BCRS α) (x : List α) (r : List α) : List α × List (Buf × Nat) :=
  (List.range c.nrows).foldl
    (fun (s : List α × List (Buf × Nat)) i =>
      ((s.1.set i (rowBCRS_traced c x s.2 i).1), (rowBCRS_traced c x s.2 i).2 ++ [(Buf.r, i)]))
    (memsetZero r c.ncols, (List.range c.ncols).map (fun i => (Buf.r, i)))

/-- The body of the loop over the rows of `MultiplyELL` (lines 223-228), as
`rowELL`, with every subscript `indices[i][j]` at which it loads `x` appended to
the list `loads`. -/
def rowELL_traced (e : ELL α) (x : List α) (loads : List Int) (i : Nat) : α × List Int :=
  (List.range e.max_entries_per_row).foldl
    (fun (s : α × List Int) j =>
      if (e.indices.getD i []).getD j 0 ≥ 0 then
        (s.1 + (e.values.getD i []).getD j 0 * x.getD ((e.indices.getD i []).getD j 0).toNat 0,
          s.2 ++ [(e.indices.getD i []).getD j 0])
      else s) (0, loads)

/-- The function `MultiplyELL` (lines 210-231) with the list of the subscripts at
which it loads `x`. -/
def MultiplyELL_traced (e : ELL α) (x : List α) (r : List α) : List α × List Int :=
  (List.range e.nrows).foldl
    (fun (s : List α × List Int) i =>
      (s.1.set i (rowELL_traced e x s.2 i).1, (rowELL_traced e x s.2 i).2))
    (memsetZero r e.nrows, [])

/-- The accesses of `MultiplyBCRS` for the block `j`. -/
def blockAccesses (c : BCRS α) (j : Nat) : List (Buf × Nat) :=
  [(Buf.colInd, j), (Buf.nnzPtr, j), (Buf.nnzPtr, j + 1)] ++
    (List.zip
      (List.range' (c.nnzPtr.getD j 0) (c.nnzPtr.getD (j + 1) 0 - c.nnzPtr.getD j 0))
      (List.range' (c.colInd.getD j 0) (c.nnzPtr.getD (j + 1) 0 - c.nnzPtr.getD j 0))).flatMap
      (fun p => [(Buf.value, p.1), (Buf.x, p.2)])

/-- The accesses of `MultiplyBCRS` for the row `i`. -/
def rowAccesses (c : BCRS α) (i : Nat) : List (Buf × Nat) :=
  [(Buf.rowPtr, i), (Buf.rowPtr, i + 1)] ++
    (List.range' (c.rowPtr.getD i 0) (c.rowPtr.getD (i + 1) 0 - c.rowPtr.getD i 0)).flatMap
      (blockAccesses c) ++ [(Buf.r, i)]

/-- The accesses of `MultiplyBCRS`. -/
def allAccesses (c : BCRS α) : List (Buf × Nat) :=
  (List.range c.ncols).map (fun i => (Buf.r, i)) ++ (List.range c.nrows).flatMap (rowAccesses c)

/-- The subscripts at which `MultiplyELL` loads `x`. -/
def xLoadsELL (e : ELL α) : List Int :=
  (List.range e.nrows).flatMap (fun i =>
    (List.range e.max_entries_per_row).flatMap (fun j =>
      if (e.indices.getD i []).getD j 0 ≥ 0 then [(e.indices.getD i []).getD j 0] else []))

end Traced

/-- A BCRS that `CreateBCRS` does not build: one row with two blocks, the first
at column `1` with the single value `4`, the second empty. -/
def exampleBCRS : BCRS Int where
  colInd := [1, 0]
  rowPtr := [0, 2]
  value := [4]
  nnzPtr := [0, 1, 1]
  nrows := 1
  ncols := 2
  nnz := 1
  nblocks := 2

/-- The matrix of scenario 3. -/
def exampleM : MATRIX Int := MATRIX.ofRows 2 3 3 [[1, 2, 0], [0, 0, 3]]


/-! ## Loops and sequential stores -/

section General

variable {β γ : Type}

theorem foldl_range_succ (f : γ → Nat → γ) (s : γ) (n : Nat) :
    (List.range (n + 1)).foldl f s = f ((List.range n).foldl f s) n := by
  rw [List.range_succ, List.foldl_append]; rfl

theorem length_writeSeq (l : List β) : ∀ (a : List β) (i : Nat),
    (writeSeq a i l).length = a.length := by
  induction l with
  | nil => intro a i; rfl
  | cons v l ih => intro a i; simp [writeSeq, ih]

theorem writeSeq_append (l1 l2 : List β) : ∀ (a : List β) (i : Nat),
    writeSeq a i (l1 ++ l2) = writeSeq (writeSeq a i l1) (i + l1.length) l2 := by
  induction l1 with
  | nil => intro a i; simp [writeSeq]
  | cons v l ih =>
    intro a i
    rw [List.cons_append, writeSeq, ih, writeSeq, List.length_cons,
      show i + 1 + l.length = i + (l.length + 1) by omega]

theorem writeSeq_snoc (l : List β) (v : β) (a : List β) (i : Nat) :
    writeSeq a i (l ++ [v]) = (writeSeq a i l).set (i + l.length) v := by
  rw [writeSeq_append]; rfl

theorem writeSeq_eq (l : List β) : ∀ (a : List β) (i : Nat), i + l.length ≤ a.length →
    writeSeq a i l = a.take i ++ l ++ a.drop (i + l.length) := by
  induction l with
  | nil => intro a i _; simp [writeSeq]
  | cons v l ih =>
    intro a i h
    simp only [List.length_cons] at h
    rw [writeSeq, ih _ _ (by simp; omega)]
    have h1 : (a.set i v).take (i + 1) = a.take i ++ [v] := by
      rw [List.set_eq_take_append_cons_drop, if_pos (by omega)]
      rw [List.take_append_eq_append_take]
      simp [List.take_take, Nat.min_eq_left (Nat.le_succ i)]
      have : min i a.length = i := by omega
      simp [this]
    have h2 : (a.set i v).drop (i + 1 + l.length) = a.drop (i + (l.length + 1)) := by
      rw [List.drop_set_of_lt _ _ (by omega)]; congr 1; omega
    rw [h1, h2]; simp

theorem writeSeq_full (l a : List β) (h : a.length = l.length) : writeSeq a 0 l = l := by
  rw [writeSeq_eq l a 0 (by omega)]; simp [h]

theorem foldl_range'_getD (g : γ → Nat → γ) (h : γ → β → γ) (d : β) (l : List β) :
    ∀ (lo : Nat) (t : γ), (∀ q, q < l.length → ∀ t, g t (lo + q) = h t (l.getD q d)) →
      (List.range' lo l.length).foldl g t = l.foldl h t := by
  induction l with
  | nil => intro lo t _; rfl
  | cons v l ih =>
    intro lo t hq
    simp only [List.length_cons, List.range'_succ, List.foldl_cons]
    have h0 := hq 0 (by simp) t
    simp at h0
    rw [h0]
    apply ih
    intro q hql t
    have := hq (q + 1) (by simp; omega) t
    rw [show lo + 1 + q = lo + (q + 1) by omega, this]
    rfl

end General

/-! ## The passes of `CreateBCRS` in closed form -/

section Fill

variable {α : Type} [Zero α] [DecidableEq α]

theorem nzCols_succ (M : MATRIX α) (i n : Nat) :
    nzCols M i (n + 1) = if M.mel i n ≠ 0 then nzCols M i n ++ [n] else nzCols M i n := by
  unfold nzCols
  rw [List.range_succ, List.filter_append]
  by_cases h : M.mel i n = 0 <;> simp [h]

theorem nzCount_eq (M : MATRIX α) (i n : Nat) : nzCount M i n = (nzCols M i n).length := by
  unfold nzCount nzCols
  rw [List.countP_eq_length_filter]

theorem nzCount_succ (M : MATRIX α) (i n : Nat) :
    nzCount M i (n + 1) = if M.mel i n ≠ 0 then nzCount M i n + 1 else nzCount M i n := by
  rw [nzCount_eq, nzCount_eq, nzCols_succ]
  by_cases h : M.mel i n = 0 <;> simp [h]

theorem startCols_succ (M : MATRIX α) (i n : Nat) :
    startCols M i (n + 1) =
      if M.mel i n ≠ 0 ∧ (n = 0 ∨ M.mel i (n - 1) = 0) then startCols M i n ++ [n]
      else startCols M i n := by
  unfold startCols
  rw [List.range_succ, List.filter_append]
  by_cases h : M.mel i n ≠ 0 ∧ (n = 0 ∨ M.mel i (n - 1) = 0)
  · rw [if_pos h]; simp [List.filter, h]
  · rw [if_neg h]; simp [List.filter, h]

theorem foldl_fillCell (M : MATRIX α) (k : Nat) (s : FillState α) (n : Nat) :
    (List.range n).foldl (fillCell M k) s =
      { colInd := writeSeq s.colInd s.block_number (startCols M k n)
        rowPtr := s.rowPtr
        nnzPtr := writeSeq s.nnzPtr s.block_number
          ((startCols M k n).map (fun c => s.index + nzCount M k c))
        value := writeSeq s.value s.index ((nzCols M k n).map (M.mel k))
        block_number := s.block_number + (startCols M k n).length
        index := s.index + nzCount M k n } := by
  induction n with
  | zero => cases s; simp [nzCols, startCols, nzCount, writeSeq]
  | succ n ih =>
    rw [foldl_range_succ, ih, nzCols_succ, nzCount_succ, startCols_succ]
    unfold fillCell
    by_cases h : M.mel k n = 0
    · simp [h]
    · by_cases h2 : n = 0 ∨ M.mel k (n - 1) = 0
      · have h2' : n = 0 ∨ (n ≠ 0 ∧ M.mel k (n - 1) = 0) := by
          rcases h2 with h2 | h2
          · exact Or.inl h2
          · by_cases hn : n = 0
            · exact Or.inl hn
            · exact Or.inr ⟨hn, h2⟩
        simp only [ne_eq, h, not_false_eq_true, h2, and_self, if_true, h2', List.map_append,
          List.map_cons, List.map_nil, writeSeq_snoc, List.length_map, List.length_append,
          List.length_cons, List.length_nil, nzCount_eq]
        simp [Nat.add_assoc]
      · have h2' : ¬ (n = 0 ∨ (n ≠ 0 ∧ M.mel k (n - 1) = 0)) := by
          intro h3; apply h2
          rcases h3 with h3 | h3
          · exact Or.inl h3
          · exact Or.inr h3.2
        simp only [ne_eq, h, not_false_eq_true, h2, and_false, if_true, if_false, h2',
          List.map_append, List.map_cons, List.map_nil, writeSeq_snoc, List.length_map,
          nzCount_eq]
        simp [Nat.add_assoc]

end Fill

section FillRows

variable {α : Type} [Zero α] [DecidableEq α]

theorem foldl_set_range {β : Type} (g : Nat → β) (r : List β) (n : Nat) :
    (List.range n).foldl (fun r i => r.set i (g i)) r = writeSeq r 0 ((List.range n).map g) := by
  induction n with
  | zero => rfl
  | succ n ih => rw [foldl_range_succ, ih, List.range_succ, List.map_append, List.map_singleton,
      writeSeq_snoc]; simp

theorem allStarts_succ (M : MATRIX α) (k : Nat) :
    allStarts M (k + 1) = allStarts M k ++ startCols M k M.ncols := by
  simp [allStarts, List.range_succ]

theorem allPtrs_succ (M : MATRIX α) (k : Nat) :
    allPtrs M (k + 1) = allPtrs M k ++ (startCols M k M.ncols).map (nzPreceding M k) := by
  simp [allPtrs, List.range_succ]

theorem allVals_succ (M : MATRIX α) (k : Nat) :
    allVals M (k + 1) = allVals M k ++ (nzCols M k M.ncols).map (M.mel k) := by
  simp [allVals, List.range_succ]

theorem blocksBefore_succ (M : MATRIX α) (k : Nat) :
    blocksBefore M (k + 1) = blocksBefore M k + (startCols M k M.ncols).length := by
  simp [blocksBefore, List.range_succ]

theorem nzBefore_succ (M : MATRIX α) (k : Nat) :
    nzBefore M (k + 1) = nzBefore M k + rowCount M k := by
  simp [nzBefore, List.range_succ]

theorem length_allStarts (M : MATRIX α) (k : Nat) :
    (allStarts M k).length = blocksBefore M k := by
  induction k with
  | zero => rfl
  | succ k ih => rw [allStarts_succ, blocksBefore_succ, List.length_append, ih]

theorem length_allPtrs (M : MATRIX α) (k : Nat) :
    (allPtrs M k).length = blocksBefore M k := by
  induction k with
  | zero => rfl
  | succ k ih => rw [allPtrs_succ, blocksBefore_succ, List.length_append, ih, List.length_map]

theorem length_allVals (M : MATRIX α) (k : Nat) :
    (allVals M k).length = nzBefore M k := by
  induction k with
  | zero => rfl
  | succ k ih =>
    rw [allVals_succ, nzBefore_succ, List.length_append, ih, List.length_map, rowCount,
      nzCount_eq]

theorem foldl_fillRow (M : MATRIX α) (s : FillState α) (h1 : s.block_number = 0)
    (h2 : s.index = 0) (k : Nat) :
    (List.range k).foldl (fillRow M) s =
      { colInd := writeSeq s.colInd 0 (allStarts M k)
        rowPtr := writeSeq s.rowPtr 1 ((List.range k).map (fun i => blocksBefore M (i + 1)))
        nnzPtr := writeSeq s.nnzPtr 0 (allPtrs M k)
        value := writeSeq s.value 0 (allVals M k)
        block_number := blocksBefore M k
        index := nzBefore M k } := by
  induction k with
  | zero => cases s; simp_all [allStarts, allPtrs, allVals, blocksBefore, nzBefore, writeSeq]
  | succ k ih =>
    rw [foldl_range_succ, ih]
    unfold fillRow
    rw [foldl_fillCell]
    simp only [allStarts_succ, allPtrs_succ, allVals_succ, blocksBefore_succ, nzBefore_succ,
      writeSeq_append, length_allStarts, length_allPtrs, length_allVals, Nat.zero_add,
      List.range_succ, List.map_append, List.map_singleton, writeSeq_snoc, List.length_map,
      List.length_range, rowCount, Nat.add_comm 1 k]
    rfl

theorem countBlocksCell_foldl (M : MATRIX α) (i c n : Nat) :
    (List.range n).foldl (countBlocksCell M i) c = c + (startCols M i n).length := by
  induction n with
  | zero => rfl
  | succ n ih =>
    rw [foldl_range_succ, ih, startCols_succ]
    unfold countBlocksCell
    by_cases h : M.mel i n = 0
    · simp [h]
    · by_cases hn : n = 0
      · subst hn; simp [h]; omega
      · by_cases h2 : M.mel i (n - 1) = 0
        · simp [h, hn, h2]; omega
        · simp [h, hn, h2]

theorem countBlocks_eq (M : MATRIX α) : countBlocks M = blocksBefore M M.nrows := by
  unfold countBlocks
  generalize M.nrows = k
  induction k with
  | zero => rfl
  | succ k ih => rw [foldl_range_succ, ih, countBlocksCell_foldl, blocksBefore_succ]

end FillRows

section CreateBCRSForm

variable {α : Type} [Zero α] [DecidableEq α]

theorem trueNnz_eq (M : MATRIX α) : trueNnz M = nzBefore M M.nrows := by
  unfold trueNnz cellsRowMajor nzBefore rowCount nzCount
  rw [List.flatMap_def, List.countP_flatten, List.map_map]
  congr 1
  apply List.map_congr_left
  intro i _
  simp [List.countP_map, Function.comp_def]

theorem nonzeroCells_eq (M : MATRIX α) : nonzeroCells M = allVals M M.nrows := by
  unfold nonzeroCells cellsRowMajor allVals nzCols
  rw [List.filter_flatMap]
  congr 1
  funext i
  rw [List.filter_map]
  rfl

theorem fillInit_rowPtr (M : MATRIX α) (nb : Nat) :
    (fillInit M nb).rowPtr = List.replicate (M.nrows + 1) 0 := by
  unfold fillInit
  simp only
  generalize M.nrows + 1 = m
  generalize List.range m = l
  induction l with
  | nil => rfl
  | cons i l ih => rw [List.foldl_cons, List.set_replicate_self, ih]

theorem fillBCRS_eq (M : MATRIX α) :
    fillBCRS M =
      { colInd := allStarts M M.nrows
        rowPtr := (List.range (M.nrows + 1)).map (blocksBefore M)
        nnzPtr := allPtrs M M.nrows ++ [0]
        value := writeSeq (List.replicate M.nnz 0) 0 (allVals M M.nrows)
        block_number := blocksBefore M M.nrows
        index := nzBefore M M.nrows } := by
  unfold fillBCRS
  rw [foldl_fillRow M _ rfl rfl, fillInit_rowPtr]
  have hc : writeSeq (fillInit M (countBlocks M)).colInd 0 (allStarts M M.nrows)
      = allStarts M M.nrows := by
    apply writeSeq_full
    simp [fillInit, length_allStarts, countBlocks_eq]
  have hp : writeSeq (fillInit M (countBlocks M)).nnzPtr 0 (allPtrs M M.nrows)
      = allPtrs M M.nrows ++ [0] := by
    rw [writeSeq_eq _ _ _ (by simp [fillInit, length_allPtrs, countBlocks_eq])]
    simp [fillInit, length_allPtrs, countBlocks_eq]
  have hr : writeSeq (List.replicate (M.nrows + 1) 0) 1
      ((List.range M.nrows).map (fun i => blocksBefore M (i + 1)))
      = (List.range (M.nrows + 1)).map (blocksBefore M) := by
    rw [writeSeq_eq _ _ _ (by simp; omega), List.range_succ_eq_map]
    simp [List.replicate_succ, blocksBefore, Function.comp_def, Nat.add_comm 1]
  rw [hc, hp, hr]
  rfl

theorem CreateBCRS_colInd (M : MATRIX α) : (CreateBCRS M).colInd = allStarts M M.nrows := by
  simp [CreateBCRS, fillBCRS_eq]

theorem CreateBCRS_rowPtr (M : MATRIX α) :
    (CreateBCRS M).rowPtr = (List.range (M.nrows + 1)).map (blocksBefore M) := by
  simp [CreateBCRS, fillBCRS_eq]

theorem CreateBCRS_nnzPtr (M : MATRIX α) :
    (CreateBCRS M).nnzPtr = allPtrs M M.nrows ++ [M.nnz] := by
  simp only [CreateBCRS, fillBCRS_eq, countBlocks_eq]
  rw [List.set_append_right _ _ (by simp [length_allPtrs])]
  simp [length_allPtrs]

theorem CreateBCRS_value (M : MATRIX α) (hnnz : M.nnz = trueNnz M) :
    (CreateBCRS M).value = allVals M M.nrows := by
  simp only [CreateBCRS, fillBCRS_eq]
  apply writeSeq_full
  simp [length_allVals, hnnz, trueNnz_eq]

theorem CreateBCRS_nblocks (M : MATRIX α) :
    (CreateBCRS M).nblocks = blocksBefore M M.nrows := by
  simp [CreateBCRS, countBlocks_eq]

end CreateBCRSForm

/-! ## Runs of nonzero cells in a row -/

section Runs

variable {α : Type} [Zero α] [DecidableEq α]

theorem offsets_snoc (l : List Nat) : ∀ (s L : Nat),
    offsets s (l ++ [L]) = offsets s l ++ [s + l.sum] := by
  induction l with
  | nil => intro s L; simp [offsets]
  | cons a l ih => intro s L; simp [offsets, ih, Nat.add_assoc]

theorem length_offsets (l : List Nat) : ∀ s : Nat, (offsets s l).length = l.length := by
  induction l with
  | nil => intro s; rfl
  | cons a l ih => intro s; simp [offsets, ih]

theorem sum_lens_of_cover (R : List (Nat × Nat)) :
    ((R.flatMap (fun r => List.range' r.1 r.2)).length) = (R.map Prod.snd).sum := by
  induction R with
  | nil => rfl
  | cons r R ih => simp [ih]

theorem runsInv (M : MATRIX α) (i : Nat) : ∀ n, RunsInv M i n := by
  intro n
  induction n with
  | zero =>
    refine ⟨rfl, rfl, ?_, ?_, ?_, ?_, rfl⟩ <;> simp [runsRev]
  | succ n ih =>
    by_cases hz : M.mel i n = 0
    · have hR : runsRev M i (n + 1) = runsRev M i n := by simp [runsRev, hz]
      refine ⟨?_, ?_, ?_, ?_, ?_, ?_, ?_⟩
      · rw [hR, ih.starts, startCols_succ]; simp [hz]
      · rw [hR, ih.cover, nzCols_succ]; simp [hz]
      · intro _ h; simp [hz] at h
      · rw [hR]; exact ih.pos
      · rw [hR]; intro r hr
        have := ih.closedTail r hr
        exact ⟨by omega, this.2⟩
      · rw [hR]; intro r hr
        right
        rcases ih.head r hr with h | h
        · exact ⟨by omega, by rw [h.1]; exact hz⟩
        · exact ⟨by omega, h.2⟩
      · rw [hR]; exact ih.chain
    · by_cases hs : n = 0 ∨ M.mel i (n - 1) = 0
      · have hR : runsRev M i (n + 1) = (n, 1) :: runsRev M i n := by simp [runsRev, hz, hs]
        refine ⟨?_, ?_, ?_, ?_, ?_, ?_, ?_⟩
        · rw [hR, startCols_succ]; simp [hz, hs, ih.starts]
        · rw [hR, nzCols_succ]; simp [hz, ih.cover]
        · intro _ _; exact ⟨n, 1, _, hR, rfl⟩
        · rw [hR]; intro r hr
          rcases List.mem_cons.1 hr with h | h
          · rw [h]
          · exact ih.pos r h
        · rw [hR]; intro r hr
          simp only [List.tail_cons] at hr
          cases hRn : runsRev M i n with
          | nil => rw [hRn] at hr; simp at hr
          | cons r0 rest =>
            rw [hRn] at hr
            rcases List.mem_cons.1 hr with h | h
            · have := ih.head r0 (by rw [hRn]; simp)
              rw [h]
              rcases this with h1 | h1
              · exfalso
                rcases hs with hs | hs
                · omega
                · exact h1.2.2 hs
              · exact ⟨by omega, h1.2⟩
            · have := ih.closedTail r (by rw [hRn]; exact h)
              exact ⟨by omega, this.2⟩
        · rw [hR]; intro r hr
          simp at hr
          left
          subst hr
          exact ⟨rfl, by omega, by simpa using hz⟩
        · rw [hR]
          simp only [List.reverse_cons, List.map_append, List.map_cons, List.map_nil,
            offsets_snoc, ih.chain, Nat.zero_add]
          rw [← sum_lens_of_cover, ih.cover, nzCount_eq]
      · have hn : 0 < n := by
          rcases Nat.eq_zero_or_pos n with h | h
          · exact absurd (Or.inl h) hs
          · exact h
        have hp : M.mel i (n - 1) ≠ 0 := fun h => hs (Or.inr h)
        obtain ⟨c, L, rest, hRn, hcl⟩ := ih.last hn hp
        have hR : runsRev M i (n + 1) = (c, L + 1) :: rest := by
          simp [runsRev, hz, hs, hRn]
        have ihs := ih.starts
        have ihc := ih.cover
        have ihp := ih.pos
        have iht := ih.closedTail
        have ihch := ih.chain
        rw [hRn] at ihs ihc ihp iht ihch
        refine ⟨?_, ?_, ?_, ?_, ?_, ?_, ?_⟩
        · rw [hR, startCols_succ, if_neg (fun h => hs h.2), ← ihs]; simp
        · rw [hR, nzCols_succ, if_pos hz, ← ihc]
          simp [List.range'_concat, hcl]
        · intro _ _; exact ⟨c, L + 1, rest, hR, by omega⟩
        · rw [hR]; intro r hr
          rcases List.mem_cons.1 hr with h | h
          · rw [h]; simp
          · exact ihp r (List.mem_cons_of_mem _ h)
        · rw [hR]; intro r hr
          have := iht r hr
          exact ⟨by omega, this.2⟩
        · rw [hR]; intro r hr
          simp at hr
          left
          subst hr
          exact ⟨by simp; omega, by omega, by simpa using hz⟩
        · rw [hR]
          simp only [List.reverse_cons, List.map_append, List.map_cons, List.map_nil,
            offsets_snoc] at ihch ⊢
          exact ihch

end Runs

section RunsFacts

variable {α : Type} [Zero α] [DecidableEq α]

theorem runs_starts (M : MATRIX α) (i : Nat) :
    (runs M i).map Prod.fst = startCols M i M.ncols := (runsInv M i M.ncols).starts

theorem runs_cover (M : MATRIX α) (i : Nat) :
    (runs M i).flatMap (fun r => List.range' r.1 r.2) = nzCols M i M.ncols :=
  (runsInv M i M.ncols).cover

theorem runs_chain (M : MATRIX α) (i : Nat) :
    (runs M i).map (fun r => nzCount M i r.1) = offsets 0 ((runs M i).map Prod.snd) :=
  (runsInv M i M.ncols).chain

theorem runs_sum (M : MATRIX α) (i : Nat) : ((runs M i).map Prod.snd).sum = rowCount M i := by
  rw [← sum_lens_of_cover, runs_cover, rowCount, nzCount_eq]

theorem length_runs (M : MATRIX α) (i : Nat) :
    (runs M i).length = (startCols M i M.ncols).length := by
  rw [← runs_starts, List.length_map]

theorem mem_nzCols (M : MATRIX α) (i n j : Nat) :
    j ∈ nzCols M i n ↔ j < n ∧ M.mel i j ≠ 0 := by
  simp [nzCols]

theorem mem_startCols (M : MATRIX α) (i n j : Nat) :
    j ∈ startCols M i n ↔ j < n ∧ M.mel i j ≠ 0 ∧ (j = 0 ∨ M.mel i (j - 1) = 0) := by
  simp [startCols]

theorem runs_maximal (M : MATRIX α) (i : Nat) (r : Nat × Nat) (hr : r ∈ runs M i) :
    IsMaximalRun M i r.1 r.2 := by
  have inv := runsInv M i M.ncols
  have hr' : r ∈ runsRev M i M.ncols := by simpa [runs] using hr
  have hpos : 1 ≤ r.2 := inv.pos r hr'
  have hend : r.1 + r.2 ≤ M.ncols ∧ (r.1 + r.2 = M.ncols ∨ M.mel i (r.1 + r.2) = 0) := by
    cases hR : runsRev M i M.ncols with
    | nil => rw [hR] at hr'; simp at hr'
    | cons r0 rest =>
      rw [hR] at hr'
      rcases List.mem_cons.1 hr' with h | h
      · have := inv.head r0 (by rw [hR]; simp)
        rw [h]
        rcases this with h1 | h1
        · exact ⟨by omega, Or.inl h1.1⟩
        · exact ⟨by omega, Or.inr h1.2⟩
      · have := inv.closedTail r (by rw [hR]; exact h)
        exact ⟨by omega, Or.inr this.2⟩
  have hcells : ∀ t, t < r.2 → M.mel i (r.1 + t) ≠ 0 := by
    intro t ht
    have hm : r.1 + t ∈ (runs M i).flatMap (fun r => List.range' r.1 r.2) := by
      rw [List.mem_flatMap]
      refine ⟨r, hr, ?_⟩
      rw [List.mem_range'_1]
      omega
    rw [runs_cover, mem_nzCols] at hm
    exact hm.2
  have hstart : r.1 = 0 ∨ M.mel i (r.1 - 1) = 0 := by
    have hm : r.1 ∈ (runs M i).map Prod.fst := List.mem_map_of_mem _ hr
    rw [runs_starts, mem_startCols] at hm
    exact hm.2.2
  exact ⟨hpos, hend.1, hcells, hstart, hend.2⟩

theorem maximalRun_length_unique (M : MATRIX α) (i c L L' : Nat)
    (h : IsMaximalRun M i c L) (h' : IsMaximalRun M i c L') : L = L' := by
  obtain ⟨_, hb, hc, _, he⟩ := h
  obtain ⟨_, hb', hc', _, he'⟩ := h'
  rcases Nat.lt_trichotomy L L' with hlt | heq | hgt
  · exfalso
    rcases he with he | he
    · omega
    · exact hc' L hlt he
  · exact heq
  · exfalso
    rcases he' with he' | he'
    · omega
    · exact hc L' hgt he'

theorem maximalRun_mem_runs (M : MATRIX α) (i c L : Nat) (h : IsMaximalRun M i c L) :
    (c, L) ∈ runs M i := by
  have hc : c ∈ (runs M i).map Prod.fst := by
    rw [runs_starts, mem_startCols]
    obtain ⟨h1, h2, h3, h4, _⟩ := h
    exact ⟨by omega, by simpa using h3 0 (by omega), h4⟩
  obtain ⟨r, hr, hrc⟩ := List.mem_map.1 hc
  have hm := runs_maximal M i r hr
  rw [hrc] at hm
  have := maximalRun_length_unique M i c L r.2 h hm
  rw [this, ← hrc]
  exact hr

theorem runs_nodup (M : MATRIX α) (i : Nat) : (runs M i).Nodup := by
  apply List.Nodup.of_map Prod.fst
  rw [runs_starts]
  exact (List.nodup_range _).filter _

theorem maximalRunCount_eq (M : MATRIX α) (i : Nat) :
    maximalRunCount M i = (runs M i).length := by
  unfold maximalRunCount
  rw [← List.toFinset_card_of_nodup (runs_nodup M i)]
  congr 1
  ext p
  simp only [Finset.mem_filter, Finset.mem_product, Finset.mem_range, List.mem_toFinset]
  constructor
  · rintro ⟨_, h⟩
    exact maximalRun_mem_runs M i p.1 p.2 h
  · intro h
    have hm := runs_maximal M i p h
    obtain ⟨h1, h2, _, _, _⟩ := hm
    exact ⟨⟨by omega, by omega⟩, runs_maximal M i p h⟩

end RunsFacts

/-! ## Indexing the flattened arrays -/

section Indexing

variable {β γ : Type}

theorem sum_take_add_lt (l : List Nat) : ∀ (q t : Nat), q < l.length → t < l.getD q 0 →
    (l.take q).sum + t < l.sum := by
  induction l with
  | nil => intro q t hq; simp at hq
  | cons a l ih =>
    intro q t hq ht
    cases q with
    | zero => simp at ht ⊢; omega
    | succ q =>
      simp only [List.length_cons, Nat.add_lt_add_iff_right] at hq
      have h1 : (a :: l).getD (q + 1) 0 = l.getD q 0 := rfl
      rw [h1] at ht
      have := ih q t hq ht
      simp only [List.take_succ_cons, List.sum_cons]
      omega

theorem getD_flatMap_take (f : γ → List β) (r0 : γ) (d : β) (R : List γ) :
    ∀ (q t : Nat), q < R.length → t < (f (R.getD q r0)).length →
      (R.flatMap f).getD (((R.take q).map (fun r => (f r).length)).sum + t) d
        = (f (R.getD q r0)).getD t d := by
  induction R with
  | nil => intro q t hq; simp at hq
  | cons a R ih =>
    intro q t hq ht
    cases q with
    | zero =>
      have h1 : (a :: R).getD 0 r0 = a := rfl
      rw [h1] at ht ⊢
      simp only [List.take_zero, List.map_nil, List.sum_nil, Nat.zero_add, List.flatMap_cons]
      rw [List.getD_append _ _ _ _ ht]
    | succ q =>
      simp only [List.length_cons, Nat.add_lt_add_iff_right] at hq
      have h1 : (a :: R).getD (q + 1) r0 = R.getD q r0 := rfl
      rw [h1] at ht ⊢
      simp only [List.take_succ_cons, List.map_cons, List.sum_cons, List.flatMap_cons]
      rw [Nat.add_assoc, List.getD_append_right _ _ _ _ (by omega)]
      rw [Nat.add_sub_cancel_left]
      exact ih q t hq ht

theorem getD_flatMap_range (f : Nat → List β) (d : β) (k i t : Nat) (hi : i < k)
    (ht : t < (f i).length) :
    ((List.range k).flatMap f).getD (((List.range i).map (fun r => (f r).length)).sum + t) d
      = (f i).getD t d := by
  have h1 : (List.range k).getD i 0 = i := by
    rw [List.getD_eq_getElem _ _ (by simpa using hi)]; simp
  have h2 : (List.range k).take i = List.range i := by
    rw [List.take_range, Nat.min_eq_left (Nat.le_of_lt hi)]
  have := getD_flatMap_take f 0 d (List.range k) i t (by simpa using hi) (by rw [h1]; exact ht)
  rw [h1, h2] at this
  exact this

theorem getD_offsets (l : List Nat) : ∀ (s q : Nat), q < l.length →
    (offsets s l).getD q 0 = s + (l.take q).sum := by
  induction l with
  | nil => intro s q hq; simp at hq
  | cons a l ih =>
    intro s q hq
    cases q with
    | zero => simp [offsets]
    | succ q =>
      simp only [List.length_cons, Nat.add_lt_add_iff_right] at hq
      have h1 : (offsets s (a :: l)).getD (q + 1) 0 = (offsets (s + a) l).getD q 0 := rfl
      rw [h1, ih _ _ hq]
      simp [Nat.add_assoc]

theorem getD_runningSums_succ (l : List Nat) : ∀ (s b : Nat), b < l.length →
    (offsets s l ++ [s + l.sum]).getD (b + 1) 0
      = (offsets s l ++ [s + l.sum]).getD b 0 + l.getD b 0 := by
  induction l with
  | nil => intro s b hb; simp at hb
  | cons a l ih =>
    intro s b hb
    have hl : offsets s (a :: l) ++ [s + (a :: l).sum]
        = s :: (offsets (s + a) l ++ [s + a + l.sum]) := by
      simp [offsets, Nat.add_assoc]
    rw [hl]
    cases b with
    | zero =>
      cases l with
      | nil => simp [offsets]
      | cons a' l' => simp [offsets]
    | succ b =>
      simp only [List.length_cons, Nat.add_lt_add_iff_right] at hb
      exact ih (s + a) b hb

theorem offsets_add (l : List Nat) : ∀ (s u : Nat),
    offsets (s + u) l = (offsets u l).map (fun v => s + v) := by
  induction l with
  | nil => intro s u; rfl
  | cons a l ih => intro s u; simp [offsets, ← ih, Nat.add_assoc]

theorem offsets_append (l1 l2 : List Nat) : ∀ s : Nat,
    offsets s (l1 ++ l2) = offsets s l1 ++ offsets (s + l1.sum) l2 := by
  induction l1 with
  | nil => intro s; simp [offsets]
  | cons a l ih => intro s; simp [offsets, ih, Nat.add_assoc]

theorem getD_map_range (g : Nat → β) (d : β) (n i : Nat) (hi : i < n) :
    ((List.range n).map g).getD i d = g i := by
  rw [List.getD_eq_getElem _ _ (by simpa using hi)]; simp

end Indexing

/-! ## The blocks of the built BCRS -/

section Blocks

variable {α : Type} [Zero α] [DecidableEq α]

theorem allLens_succ (M : MATRIX α) (k : Nat) :
    allLens M (k + 1) = allLens M k ++ (runs M k).map Prod.snd := by
  simp [allLens, List.range_succ]

theorem sum_allLens (M : MATRIX α) (k : Nat) : (allLens M k).sum = nzBefore M k := by
  induction k with
  | zero => rfl
  | succ k ih => rw [allLens_succ, List.sum_append, ih, runs_sum, nzBefore_succ]

theorem allPtrs_eq_offsets (M : MATRIX α) (k : Nat) :
    allPtrs M k = offsets 0 (allLens M k) := by
  induction k with
  | zero => rfl
  | succ k ih =>
    rw [allPtrs_succ, allLens_succ, offsets_append, ih, sum_allLens, ← runs_starts,
      List.map_map, Nat.zero_add]
    congr 1
    have h := offsets_add ((runs M k).map Prod.snd) (nzBefore M k) 0
    rw [Nat.add_zero] at h
    rw [h, ← runs_chain, List.map_map]
    rfl

theorem blocksBefore_eq (M : MATRIX α) (f : Nat → List (Nat × Nat) → List Nat)
    (hf : ∀ i R, (f i R).length = R.length) (i : Nat) :
    blocksBefore M i = ((List.range i).map (fun r => (f r (runs M r)).length)).sum := by
  unfold blocksBefore
  congr 1
  apply List.map_congr_left
  intro r _
  rw [hf, length_runs]

theorem getD_allStarts (M : MATRIX α) (i q : Nat) (hi : i < M.nrows)
    (hq : q < (runs M i).length) :
    (allStarts M M.nrows).getD (blocksBefore M i + q) 0 = ((runs M i).getD q (0, 0)).1 := by
  have h := getD_flatMap_range (fun r => (runs M r).map Prod.fst) 0 M.nrows i q hi
    (by simpa using hq)
  rw [← blocksBefore_eq M (fun _ R => R.map Prod.fst) (fun _ R => by simp)] at h
  have h2 : allStarts M M.nrows = (List.range M.nrows).flatMap (fun r => (runs M r).map Prod.fst)
      := by
    unfold allStarts; congr 1; funext r; rw [runs_starts]
  rw [h2, h, List.getD_eq_getElem _ _ (by simpa using hq), List.getD_eq_getElem _ _ hq]
  simp

theorem getD_allLens (M : MATRIX α) (i q : Nat) (hi : i < M.nrows)
    (hq : q < (runs M i).length) :
    (allLens M M.nrows).getD (blocksBefore M i + q) 0 = ((runs M i).getD q (0, 0)).2 := by
  have h := getD_flatMap_range (fun r => (runs M r).map Prod.snd) 0 M.nrows i q hi
    (by simpa using hq)
  rw [← blocksBefore_eq M (fun _ R => R.map Prod.snd) (fun _ R => by simp)] at h
  unfold allLens
  rw [h, List.getD_eq_getElem _ _ (by simpa using hq), List.getD_eq_getElem _ _ hq]
  simp

theorem getD_allPtrs (M : MATRIX α) (i q : Nat) (hi : i < M.nrows)
    (hq : q < (runs M i).length) :
    (allPtrs M M.nrows).getD (blocksBefore M i + q) 0
      = nzPreceding M i ((runs M i).getD q (0, 0)).1 := by
  have h := getD_flatMap_range (fun r => (runs M r).map (fun p => nzPreceding M r p.1)) 0
    M.nrows i q hi (by simpa using hq)
  rw [← blocksBefore_eq M (fun r R => R.map (fun p => nzPreceding M r p.1))
    (fun _ R => by simp)] at h
  have h2 : allPtrs M M.nrows
      = (List.range M.nrows).flatMap (fun r => (runs M r).map (fun p => nzPreceding M r p.1))
      := by
    unfold allPtrs; congr 1; funext r; rw [← runs_starts, List.map_map]; rfl
  rw [h2, h, List.getD_eq_getElem _ _ (by simpa using hq), List.getD_eq_getElem _ _ hq]
  simp

theorem blocksBefore_add_lt (M : MATRIX α) (i q : Nat) (hi : i < M.nrows)
    (hq : q < (runs M i).length) : blocksBefore M i + q < blocksBefore M M.nrows := by
  have h1 : blocksBefore M (i + 1) ≤ blocksBefore M M.nrows := by
    have hmono : ∀ a b, a ≤ b → blocksBefore M a ≤ blocksBefore M b := by
      intro a b hab
      induction hab with
      | refl => exact Nat.le_refl _
      | step _ ih => rw [blocksBefore_succ]; omega
    exact hmono _ _ hi
  rw [blocksBefore_succ, ← length_runs] at h1
  omega

/-- The `q`-th nonzero cell after the ones left of a run `r` is in column `r.1 + t`. -/
theorem getD_nzCols_run (M : MATRIX α) (i q t : Nat) (hq : q < (runs M i).length)
    (ht : t < ((runs M i).getD q (0, 0)).2) :
    nzCount M i ((runs M i).getD q (0, 0)).1 + t < rowCount M i ∧
    (nzCols M i M.ncols).getD (nzCount M i ((runs M i).getD q (0, 0)).1 + t) 0
      = ((runs M i).getD q (0, 0)).1 + t := by
  have hc : nzCount M i ((runs M i).getD q (0, 0)).1
      = (((runs M i).map Prod.snd).take q).sum := by
    have h1 : ((runs M i).map (fun r => nzCount M i r.1)).getD q 0
        = nzCount M i ((runs M i).getD q (0, 0)).1 := by
      rw [List.getD_eq_getElem _ _ (by simpa using hq), List.getD_eq_getElem _ _ hq]
      simp
    rw [← h1, runs_chain, getD_offsets _ _ _ (by simpa using hq), Nat.zero_add]
  have hl : ((runs M i).map Prod.snd).getD q 0 = ((runs M i).getD q (0, 0)).2 := by
    rw [List.getD_eq_getElem _ _ (by simpa using hq), List.getD_eq_getElem _ _ hq]
    simp
  constructor
  · rw [hc, ← runs_sum]
    exact sum_take_add_lt _ q t (by simpa using hq) (by rw [hl]; exact ht)
  · have h := getD_flatMap_take (fun r : Nat × Nat => List.range' r.1 r.2) (0, 0) 0 (runs M i)
      q t hq (by simpa using ht)
    rw [runs_cover] at h
    have h3 : ((runs M i).take q).map (fun r => (List.range' r.1 r.2).length)
        = ((runs M i).map Prod.snd).take q := by
      rw [← List.map_take]
      apply List.map_congr_left
      intro r _
      simp
    rw [h3, ← hc] at h
    rw [h, List.getD_eq_getElem _ _ (by simpa using ht)]
    simp

end Blocks

section BlockFacts

variable {α : Type} [Zero α] [DecidableEq α]

theorem CreateBCRS_block (M : MATRIX α) (hnnz : M.nnz = trueNnz M) (i q : Nat)
    (hi : i < M.nrows) (hq : q < (runs M i).length) :
    (CreateBCRS M).colInd.getD (blocksBefore M i + q) 0 = ((runs M i).getD q (0, 0)).1 ∧
    (CreateBCRS M).nnzPtr.getD (blocksBefore M i + q) 0
      = nzPreceding M i ((runs M i).getD q (0, 0)).1 ∧
    (CreateBCRS M).nnzPtr.getD (blocksBefore M i + q + 1) 0
      = nzPreceding M i ((runs M i).getD q (0, 0)).1 + ((runs M i).getD q (0, 0)).2 ∧
    ∀ t, t < ((runs M i).getD q (0, 0)).2 →
      (CreateBCRS M).value.getD (nzPreceding M i ((runs M i).getD q (0, 0)).1 + t) 0
        = M.mel i (((runs M i).getD q (0, 0)).1 + t) := by
  have hb := blocksBefore_add_lt M i q hi hq
  have hp : (CreateBCRS M).nnzPtr.getD (blocksBefore M i + q) 0
      = nzPreceding M i ((runs M i).getD q (0, 0)).1 := by
    rw [CreateBCRS_nnzPtr, List.getD_append _ _ _ _ (by rw [length_allPtrs]; exact hb),
      getD_allPtrs M i q hi hq]
  refine ⟨?_, hp, ?_, ?_⟩
  · rw [CreateBCRS_colInd, getD_allStarts M i q hi hq]
  · have hform : (CreateBCRS M).nnzPtr
        = offsets 0 (allLens M M.nrows) ++ [0 + (allLens M M.nrows).sum] := by
      rw [CreateBCRS_nnzPtr, allPtrs_eq_offsets, sum_allLens, hnnz, trueNnz_eq, Nat.zero_add]
    have hlen : blocksBefore M i + q < (allLens M M.nrows).length := by
      have : (allLens M M.nrows).length = (allPtrs M M.nrows).length := by
        rw [allPtrs_eq_offsets, length_offsets]
      rw [this, length_allPtrs]; exact hb
    have h := getD_runningSums_succ (allLens M M.nrows) 0 (blocksBefore M i + q) hlen
    rw [← hform, hp, getD_allLens M i q hi hq] at h
    exact h
  · intro t ht
    obtain ⟨hlt, hcol⟩ := getD_nzCols_run M i q t hq ht
    have hlen : nzCount M i ((runs M i).getD q (0, 0)).1 + t
        < ((nzCols M i M.ncols).map (M.mel i)).length := by
      rw [List.length_map, ← nzCount_eq]; exact hlt
    have h := getD_flatMap_range (fun r => (nzCols M r M.ncols).map (M.mel r)) 0 M.nrows i
      (nzCount M i ((runs M i).getD q (0, 0)).1 + t) hi hlen
    have hnb : nzBefore M i
        = ((List.range i).map (fun r => ((nzCols M r M.ncols).map (M.mel r)).length)).sum := by
      unfold nzBefore
      congr 1
      apply List.map_congr_left
      intro r _
      rw [List.length_map, rowCount, nzCount_eq]
    rw [CreateBCRS_value M hnnz, nzPreceding, Nat.add_assoc]
    unfold allVals
    rw [hnb, h, List.getD_eq_getElem _ _ hlen, List.getElem_map,
      ← List.getD_eq_getElem (nzCols M i M.ncols) 0, hcol]

end BlockFacts

/-! ## The kernels on the built representations -/

section KernelFacts

variable {α : Type} [Zero α] [Add α] [Mul α]

theorem getD_writeSeq {β : Type} (a l : List β) (i p : Nat) (d : β) (h1 : i ≤ p)
    (h2 : p < i + l.length) (h3 : i + l.length ≤ a.length) :
    (writeSeq a i l).getD p d = l.getD (p - i) d := by
  rw [writeSeq_eq l a i h3, List.append_assoc,
    List.getD_append_right _ _ _ _ (by rw [List.length_take]; omega),
    List.getD_append _ _ _ _ (by rw [List.length_take]; omega), List.length_take,
    Nat.min_eq_left (by omega)]

theorem length_memsetZero (r : List α) (n : Nat) : (memsetZero r n).length = r.length := by
  unfold memsetZero
  rw [foldl_set_range, length_writeSeq]

theorem MultiplyBCRS_getD (c : BCRS α) (x r : List α) (i : Nat) (d : α) (hi : i < c.nrows)
    (hr : c.nrows ≤ r.length) : (MultiplyBCRS c x r).getD i d = rowBCRS c x i := by
  unfold MultiplyBCRS
  rw [foldl_set_range, getD_writeSeq _ _ _ _ _ (Nat.zero_le _) (by simpa using hi)
    (by simpa [length_memsetZero] using hr)]
  exact getD_map_range _ _ _ _ hi

theorem blockBCRS_inner (value x : List α) (g : Nat → α) (c0 : Nat) :
    ∀ (L P tt : Nat) (t : α), (∀ u, u < L → value.getD (P + u) 0 = g (c0 + tt + u)) →
      (List.range' P L).foldl
        (fun (p : α × Nat) k => (p.1 + value.getD k 0 * x.getD (c0 + p.2) 0, p.2 + 1)) (t, tt)
      = ((List.range' (c0 + tt) L).foldl (fun t col => t + g col * x.getD col 0) t, tt + L) := by
  intro L
  induction L with
  | zero => intro P tt t _; rfl
  | succ L ih =>
    intro P tt t h
    rw [List.range'_succ, List.range'_succ, List.foldl_cons, List.foldl_cons]
    have h0 := h 0 (by omega)
    rw [Nat.add_zero, Nat.add_zero] at h0
    rw [h0]
    have := ih (P + 1) (tt + 1) (t + g (c0 + tt) * x.getD (c0 + tt) 0) (by
      intro u hu
      have := h (u + 1) (by omega)
      rw [show P + 1 + u = P + (u + 1) by omega,
        show c0 + (tt + 1) + u = c0 + tt + (u + 1) by omega]
      exact this)
    rw [this]
    rw [show c0 + (tt + 1) = c0 + tt + 1 by omega, show tt + 1 + L = tt + (L + 1) by omega]

theorem foldl_flatMap_runs {γ : Type} (h : γ → Nat → γ) (R : List (Nat × Nat)) : ∀ t : γ,
    R.foldl (fun t r => (List.range' r.1 r.2).foldl h t) t
      = (R.flatMap (fun r => List.range' r.1 r.2)).foldl h t := by
  induction R with
  | nil => intro t; rfl
  | cons r R ih => intro t; rw [List.foldl_cons, ih, List.flatMap_cons, List.foldl_append]

theorem rowBCRS_CreateBCRS [DecidableEq α] (M : MATRIX α) (hnnz : M.nnz = trueNnz M)
    (x : List α) (i : Nat) (hi : i < M.nrows) :
    rowBCRS (CreateBCRS M) x i = sparseRow M x i := by
  unfold rowBCRS
  rw [CreateBCRS_rowPtr, getD_map_range _ _ _ _ (by omega), getD_map_range _ _ _ _ (by omega),
    blocksBefore_succ, Nat.add_sub_cancel_left, ← length_runs]
  rw [foldl_range'_getD (blockBCRS (CreateBCRS M) x)
    (fun t r => (List.range' r.1 r.2).foldl (fun t col => t + M.mel i col * x.getD col 0) t)
    (0, 0) (runs M i) (blocksBefore M i) 0]
  · rw [foldl_flatMap_runs, runs_cover]; rfl
  · intro q hq t
    obtain ⟨h1, h2, h3, h4⟩ := CreateBCRS_block M hnnz i q hi hq
    unfold blockBCRS
    simp only [h1, h2, h3, Nat.add_sub_cancel_left]
    rw [blockBCRS_inner _ x (M.mel i) _ _ _ 0 t (by
      intro u hu
      rw [h4 u hu, Nat.add_zero])]
    rfl

end KernelFacts

/-! ## The passes of `CreateELL` in closed form -/

section EllGeneral

variable {β σ τ ι : Type}

theorem foldl_proj (proj : σ → τ) (step : σ → ι → σ) (F : τ → ι → τ)
    (h : ∀ s i, proj (step s i) = F (proj s) i) (l : List ι) :
    ∀ s, proj (l.foldl step s) = l.foldl F (proj s) := by
  induction l with
  | nil => intro s; rfl
  | cons i l ih => intro s; rw [List.foldl_cons, ih, h, List.foldl_cons]

theorem set_getD_self (a : List (List β)) (i : Nat) : a.set i (a.getD i []) = a := by
  by_cases h : i < a.length
  · rw [List.getD_eq_getElem _ _ h]
    apply List.ext_getElem
    · simp
    · intro p h1 h2
      rw [List.getElem_set]
      by_cases hp : i = p
      · subst hp; rw [if_pos rfl]
      · rw [if_neg hp]
  · exact List.set_eq_of_length_le (by omega)

theorem set2_set (a : List (List β)) (i j : Nat) (row : List β) (v : β) (h : i < a.length) :
    set2 (a.set i row) i j v = a.set i (row.set j v) := by
  unfold set2
  rw [List.getD_eq_getElem _ _ (by simpa using h), List.getElem_set_self, List.set_set]

theorem set2_of_length_le (a : List (List β)) (i j : Nat) (v : β) (h : a.length ≤ i) :
    set2 a i j v = a := by
  unfold set2
  exact List.set_eq_of_length_le h

/-- The stores `a[i][j0] = l[0]`, `a[i][j0+1] = l[1]`, ... into one row. -/
theorem set2_writeSeq (a : List (List β)) (i j0 : Nat) (l : List β) (v : β) :
    set2 (a.set i (writeSeq (a.getD i []) j0 l)) i (j0 + l.length) v
      = a.set i (writeSeq (a.getD i []) j0 (l ++ [v])) := by
  by_cases h : i < a.length
  · rw [set2_set _ _ _ _ _ h, writeSeq_snoc]
  · rw [List.set_eq_of_length_le (by omega), List.set_eq_of_length_le (by omega),
      set2_of_length_le _ _ _ _ (by omega)]

theorem foldl_set2_range (a : List (List β)) (i : Nat) (g : Nat → β) (n : Nat) :
    (List.range n).foldl (fun a jj => set2 a i jj (g jj)) a
      = a.set i (writeSeq (a.getD i []) 0 ((List.range n).map g)) := by
  induction n with
  | zero => exact (set_getD_self a i).symm
  | succ n ih =>
    rw [foldl_range_succ, ih, List.range_succ, List.map_append, List.map_singleton,
      ← set2_writeSeq]
    simp

/-- A loop over the rows that replaces row `i` by a function of its old
content. -/
theorem foldl_rows (G : Nat → List β → List β) (a : List (List β)) (k : Nat) :
    (List.range k).foldl (fun a i => a.set i (G i (a.getD i []))) a
      = (List.range a.length).map
          (fun i => if i < k then G i (a.getD i []) else a.getD i []) := by
  induction k with
  | zero =>
    apply List.ext_getElem
    · simp
    · intro p h1 h2
      have hp : p < a.length := by simpa using h2
      rw [List.getElem_map, List.getElem_range, if_neg (Nat.not_lt_zero _),
        List.getD_eq_getElem _ _ hp]
      rfl
  | succ k ih =>
    rw [foldl_range_succ, ih]
    apply List.ext_getElem
    · simp
    · intro p h1 h2
      have hp : p < a.length := by simpa using h2
      rw [List.getElem_set]
      by_cases hk : k = p
      · subst hk
        rw [if_pos rfl, getD_map_range _ _ _ _ hp]
        simp
      · rw [if_neg hk]
        simp only [List.getElem_map, List.getElem_range]
        by_cases hlt : p < k
        · rw [if_pos hlt, if_pos (by omega)]
        · rw [if_neg hlt, if_neg (by omega)]

end EllGeneral

section EllFill

variable {α : Type} [Zero α] [DecidableEq α]

theorem rowEntries_eq (M : MATRIX α) (i : Nat) : rowEntries M i = rowCount M i := by
  unfold rowEntries rowCount
  generalize M.ncols = n
  induction n with
  | zero => rfl
  | succ n ih => rw [foldl_range_succ, ih, nzCount_succ]

theorem foldl_ellCell (M : MATRIX α) (i : Nat) (s : EllState α) (n : Nat) :
    (List.range n).foldl (ellCell M i) s =
      { values := s.values.set i
          (writeSeq (s.values.getD i []) s.jj ((nzCols M i n).map (M.mel i)))
        indices := s.indices.set i
          (writeSeq (s.indices.getD i []) s.jj ((nzCols M i n).map (fun j : Nat => (j : Int))))
        jj := s.jj + nzCount M i n } := by
  induction n with
  | zero =>
    cases s
    simp only [List.range_zero, List.foldl_nil, nzCols, nzCount, List.filter_nil, List.map_nil,
      writeSeq, set_getD_self, List.countP_nil, Nat.add_zero]
  | succ n ih =>
    rw [foldl_range_succ, ih, nzCols_succ, nzCount_succ]
    unfold ellCell
    by_cases h : M.mel i n = 0
    · simp [h]
    · simp only [ne_eq, h, not_false_eq_true, if_true, List.map_append, List.map_cons,
        List.map_nil, ← set2_writeSeq, List.length_map, nzCount_eq, Nat.add_assoc]

theorem ellRow_values (M : MATRIX α) (s : EllState α) (i : Nat) :
    (ellRow M s i).values = s.values.set i
      (writeSeq (s.values.getD i []) 0 ((nzCols M i M.ncols).map (M.mel i))) := by
  unfold ellRow; rw [foldl_ellCell]

theorem ellRow_indices (M : MATRIX α) (s : EllState α) (i : Nat) :
    (ellRow M s i).indices = s.indices.set i
      (writeSeq (s.indices.getD i []) 0 ((nzCols M i M.ncols).map (fun j : Nat => (j : Int)))) := by
  unfold ellRow; rw [foldl_ellCell]

theorem ellClear_values (nrows W : Nat) (s : EllState α) :
    (ellClear nrows W s).values
      = (List.range nrows).foldl
          (fun a i => a.set i (writeSeq (a.getD i []) 0 ((List.range W).map (fun _ => (0 : α)))))
          s.values := by
  unfold ellClear
  apply foldl_proj EllState.values
  intro s i
  rw [foldl_proj EllState.values _ (fun a jj => set2 a i jj (0 : α)) (fun _ _ => rfl),
    foldl_set2_range]

theorem ellClear_indices (nrows W : Nat) (s : EllState α) :
    (ellClear nrows W s).indices
      = (List.range nrows).foldl
          (fun a i => a.set i
            (writeSeq (a.getD i []) 0 ((List.range W).map (fun _ => (-1 : Int)))))
          s.indices := by
  unfold ellClear
  apply foldl_proj EllState.indices
  intro s i
  rw [foldl_proj EllState.indices _ (fun a jj => set2 a i jj (-1 : Int)) (fun _ _ => rfl),
    foldl_set2_range]

end EllFill

section EllForm

variable {α : Type} [Zero α] [DecidableEq α]

theorem map_const_range {β : Type} (W : Nat) (v : β) :
    (List.range W).map (fun _ => v) = List.replicate W v := by
  induction W with
  | zero => rfl
  | succ W ih =>
    rw [List.range_succ, List.map_append, ih, List.map_singleton, List.replicate_succ']

theorem getD_replicate_lt {β : Type} (n i : Nat) (v d : β) (h : i < n) :
    (List.replicate n v).getD i d = v := by
  rw [List.getD_eq_getElem _ _ (by simpa using h)]; simp

/-- The clearing loop followed by the fill loop, on one grid. -/
theorem grid_clear_fill {β : Type} (n W : Nat) (d v : β) (l : Nat → List β) :
    (List.range n).foldl (fun a i => a.set i (writeSeq (a.getD i []) 0 (l i)))
      ((List.range n).foldl
        (fun a i => a.set i (writeSeq (a.getD i []) 0 ((List.range W).map (fun _ => v))))
        (List.replicate n (List.replicate W d)))
      = (List.range n).map (fun i => writeSeq (List.replicate W v) 0 (l i)) := by
  have hclear : (List.range n).foldl
      (fun a i => a.set i (writeSeq (a.getD i []) 0 ((List.range W).map (fun _ => v))))
      (List.replicate n (List.replicate W d))
      = (List.range n).map (fun _ => List.replicate W v) := by
    rw [foldl_rows (fun _ old => writeSeq old 0 ((List.range W).map (fun _ => v)))]
    simp only [List.length_replicate]
    apply List.map_congr_left
    intro i hi
    have hi' : i < n := List.mem_range.1 hi
    rw [if_pos hi', getD_replicate_lt _ _ _ _ hi', map_const_range,
      writeSeq_full _ _ (by simp)]
  rw [hclear, foldl_rows (fun i old => writeSeq old 0 (l i))]
  simp only [List.length_map, List.length_range]
  apply List.map_congr_left
  intro i hi
  have hi' : i < n := List.mem_range.1 hi
  rw [if_pos hi', getD_map_range _ _ _ _ hi']

theorem CreateELL_values (M : MATRIX α) :
    (CreateELL M).values = (List.range M.nrows).map (fun i =>
      writeSeq (List.replicate (compute_max_entries_per_row M) 0) 0
        ((nzCols M i M.ncols).map (M.mel i))) := by
  unfold CreateELL fillELL
  simp only
  rw [foldl_proj EllState.values (ellRow M)
    (fun a i => a.set i (writeSeq (a.getD i []) 0 ((nzCols M i M.ncols).map (M.mel i))))
    (ellRow_values M), ellClear_values]
  exact grid_clear_fill _ _ _ _ _

theorem CreateELL_indices (M : MATRIX α) :
    (CreateELL M).indices = (List.range M.nrows).map (fun i =>
      writeSeq (List.replicate (compute_max_entries_per_row M) (-1)) 0
        ((nzCols M i M.ncols).map (fun j : Nat => (j : Int)))) := by
  unfold CreateELL fillELL
  simp only
  rw [foldl_proj EllState.indices (ellRow M)
    (fun a i => a.set i
      (writeSeq (a.getD i []) 0 ((nzCols M i M.ncols).map (fun j : Nat => (j : Int)))))
    (ellRow_indices M), ellClear_indices]
  exact grid_clear_fill _ _ _ _ _

theorem maxOf_eq (a b : Nat) : maxOf a b = max a b := by
  unfold maxOf
  by_cases h : a > b
  · rw [if_pos h, Nat.max_eq_left (by omega)]
  · rw [if_neg h, Nat.max_eq_right (by omega)]

/-- The width is an upper bound of the row counts and, with a row, is one of
them. -/
theorem max_entries_spec (M : MATRIX α) (k : Nat) :
    (∀ i, i < k → rowCount M i ≤
      (List.range k).foldl (fun w i => maxOf (rowEntries M i) w) 0) ∧
    (0 < k → ∃ i, i < k ∧
      (List.range k).foldl (fun w i => maxOf (rowEntries M i) w) 0 = rowCount M i) ∧
    (k = 0 → (List.range k).foldl (fun w i => maxOf (rowEntries M i) w) 0 = 0) := by
  induction k with
  | zero => exact ⟨fun i hi => absurd hi (Nat.not_lt_zero _), fun h => absurd h (Nat.lt_irrefl _),
      fun _ => rfl⟩
  | succ k ih =>
    obtain ⟨h1, h2, h3⟩ := ih
    rw [foldl_range_succ, maxOf_eq, rowEntries_eq]
    refine ⟨?_, ?_, ?_⟩
    · intro i hi
      by_cases hik : i = k
      · subst hik; exact Nat.le_max_left _ _
      · exact Nat.le_trans (h1 i (by omega)) (Nat.le_max_right _ _)
    · intro _
      by_cases hle : (List.range k).foldl (fun w i => maxOf (rowEntries M i) w) 0
          ≤ rowCount M k
      · exact ⟨k, by omega, Nat.max_eq_left hle⟩
      · have hk : 0 < k := by
          rcases Nat.eq_zero_or_pos k with hk | hk
          · exfalso; apply hle; rw [h3 hk]; exact Nat.zero_le _
          · exact hk
        obtain ⟨i, hi, he⟩ := h2 hk
        exact ⟨i, by omega, by rw [Nat.max_eq_right (by omega), he]⟩
    · intro h; omega

theorem rowCount_le_max (M : MATRIX α) (i : Nat) (hi : i < M.nrows) :
    rowCount M i ≤ compute_max_entries_per_row M :=
  (max_entries_spec M M.nrows).1 i hi

theorem writeSeq_replicate {β : Type} (W : Nat) (v : β) (l : List β) (h : l.length ≤ W) :
    writeSeq (List.replicate W v) 0 l = l ++ List.replicate (W - l.length) v := by
  rw [writeSeq_eq _ _ _ (by simpa using h)]
  simp

theorem CreateELL_values_row (M : MATRIX α) (i : Nat) (hi : i < M.nrows) :
    (CreateELL M).values.getD i [] = (nzCols M i M.ncols).map (M.mel i)
      ++ List.replicate (compute_max_entries_per_row M - rowCount M i) 0 := by
  rw [CreateELL_values, getD_map_range _ _ _ _ hi, writeSeq_replicate _ _ _ (by
    rw [List.length_map, ← nzCount_eq]; exact rowCount_le_max M i hi)]
  rw [List.length_map, ← nzCount_eq]; rfl

theorem CreateELL_indices_row (M : MATRIX α) (i : Nat) (hi : i < M.nrows) :
    (CreateELL M).indices.getD i [] = (nzCols M i M.ncols).map (fun j : Nat => (j : Int))
      ++ List.replicate (compute_max_entries_per_row M - rowCount M i) (-1) := by
  rw [CreateELL_indices, getD_map_range _ _ _ _ hi, writeSeq_replicate _ _ _ (by
    rw [List.length_map, ← nzCount_eq]; exact rowCount_le_max M i hi)]
  rw [List.length_map, ← nzCount_eq]; rfl

end EllForm

section EllKernel

variable {α : Type} [Zero α] [Add α] [Mul α]

theorem MultiplyELL_getD (e : ELL α) (x r : List α) (i : Nat) (d : α) (hi : i < e.nrows)
    (hr : e.nrows ≤ r.length) : (MultiplyELL e x r).getD i d = rowELL e x i := by
  unfold MultiplyELL
  rw [foldl_set_range, getD_writeSeq _ _ _ _ _ (Nat.zero_le _) (by simpa using hi)
    (by simpa [length_memsetZero] using hr)]
  exact getD_map_range _ _ _ _ hi

theorem foldl_fixed_of_mem {γ ι : Type} (f : γ → ι → γ) (l : List ι) :
    ∀ t : γ, (∀ j ∈ l, ∀ t, f t j = t) → l.foldl f t = t := by
  induction l with
  | nil => intro t _; rfl
  | cons a l ih =>
    intro t h
    rw [List.foldl_cons, h a (List.mem_cons_self _ _)]
    exact ih t (fun j hj => h j (List.mem_cons_of_mem _ hj))

theorem rowELL_CreateELL [DecidableEq α] (M : MATRIX α) (x : List α) (i : Nat)
    (hi : i < M.nrows) : rowELL (CreateELL M) x i = sparseRow M x i := by
  have hW : (CreateELL M).max_entries_per_row = compute_max_entries_per_row M := rfl
  have hcnt : (nzCols M i M.ncols).length = rowCount M i := by rw [rowCount, nzCount_eq]
  have hle := rowCount_le_max M i hi
  have hI := CreateELL_indices_row M i hi
  have hV := CreateELL_values_row M i hi
  generalize hp : compute_max_entries_per_row M - rowCount M i = pad at hI hV
  have hWeq : compute_max_entries_per_row M = pad + (nzCols M i M.ncols).length := by omega
  unfold rowELL
  rw [hW, hI, hV, hWeq, List.range_eq_range', ← List.range'_append_1, List.foldl_append,
    Nat.zero_add]
  rw [foldl_fixed_of_mem]
  · apply foldl_range'_getD _ _ 0
    intro q hq t
    have hq1 : q < ((nzCols M i M.ncols).map (fun j : Nat => (j : Int))).length := by
      simpa using hq
    have hq2 : q < ((nzCols M i M.ncols).map (M.mel i)).length := by simpa using hq
    rw [Nat.zero_add, List.getD_append _ _ _ _ hq1, List.getD_append _ _ _ _ hq2,
      List.getD_eq_getElem _ _ hq1, List.getD_eq_getElem _ _ hq2,
      List.getD_eq_getElem _ _ hq, List.getElem_map, List.getElem_map,
      if_pos (Int.ofNat_nonneg _), Int.toNat_ofNat]
  · intro j hj t
    rw [List.mem_range'_1] at hj
    have hlen : ((nzCols M i M.ncols).map (fun j : Nat => (j : Int))).length ≤ j := by
      rw [List.length_map]; exact hj.1
    rw [List.getD_append_right _ _ _ _ hlen, getD_replicate_lt _ _ _ _ (by
      rw [List.length_map]; omega)]
    rw [if_neg (by decide)]

end EllKernel

/-! ## The products the kernels compute -/

section Products

theorem sparse_upto_sum {α : Type} [Semiring α] [DecidableEq α] (M : MATRIX α) (x : List α)
    (i : Nat) (t0 : α) (n : Nat) :
    (nzCols M i n).foldl (fun t j => t + M.mel i j * x.getD j 0) t0
      = t0 + ∑ j in Finset.range n, M.mel i j * x.getD j 0 := by
  induction n with
  | zero => simp [nzCols]
  | succ n ih =>
    rw [nzCols_succ, Finset.sum_range_succ]
    by_cases h : M.mel i n = 0
    · rw [if_neg (by simpa using h), ih, h, zero_mul, add_zero]
    · rw [if_pos h, List.foldl_append, ih, List.foldl_cons, List.foldl_nil, add_assoc]

theorem sparseRow_eq_sum {α : Type} [Semiring α] [DecidableEq α] (M : MATRIX α) (x : List α)
    (i : Nat) : sparseRow M x i = ∑ j in Finset.range M.ncols, M.mel i j * x.getD j 0 := by
  unfold sparseRow
  rw [sparse_upto_sum, zero_add]

/-- C1: for a dense matrix `M` whose declared `nnz` is its true number of nonzero
cells, a vector `x` of length `ncols` and an output buffer `r` with room for the
`ncols` cells the kernel clears and the `nrows` entries it stores, entry
`i < nrows` of the buffer after
`MultiplyBCRS(CreateBCRS(M), x, r)` is the sum over the columns `j` of
`M[i][j] * x[j]`, in exact arithmetic (any semiring). -/
theorem C1_MultiplyBCRS_dense_product {α : Type} [Semiring α] [DecidableEq α] (M : MATRIX α)
    (hnnz : M.nnz = trueNnz M) (x : List α) (hx : x.length = M.ncols) (r : List α)
    (hr : max M.nrows M.ncols ≤ r.length) (i : Nat) (hi : i < M.nrows) :
    (MultiplyBCRS (CreateBCRS M) x r).getD i 0
      = ∑ j in Finset.range M.ncols, M.mel i j * x.getD j 0 := by
  rw [MultiplyBCRS_getD (CreateBCRS M) x r i 0 hi (Nat.le_trans (Nat.le_max_left _ _) hr),
    rowBCRS_CreateBCRS M hnnz x i hi, sparseRow_eq_sum]

/-- Scenario 3 for the BCRS kernel on a buffer of three cells:
`M = [[1,2,0],[0,0,3]]`, `x = [1,1,1]` gives `3` and `3` in the first two entries,
and row `0` is the dense sum. -/
theorem C1_MultiplyBCRS_dense_product_witness :
    exampleM.nnz = trueNnz exampleM ∧
    MultiplyBCRS (CreateBCRS exampleM) [1, 1, 1] [7, 7, 7] = [3, 3, 0] ∧
    (MultiplyBCRS (CreateBCRS exampleM) [1, 1, 1] [7, 7, 7]).getD 0 0
      = ∑ j in Finset.range exampleM.ncols, exampleM.mel 0 j * ([1, 1, 1] : List Int).getD j 0 :=
  ⟨by decide, by decide,
    C1_MultiplyBCRS_dense_product exampleM (by decide) [1, 1, 1] (by decide) [7, 7, 7]
      (by decide) 0 (by decide)⟩

/-- C2: for a dense matrix `M` (whatever its declared `nnz`), a vector `x` of
length `ncols` and an output buffer `r` with room for `nrows` entries, entry
`i < nrows` of the buffer after `MultiplyELL(CreateELL(M), x, r)` is the sum over
the columns `j` of `M[i][j] * x[j]`, in exact arithmetic (any semiring). -/
theorem C2_MultiplyELL_dense_product {α : Type} [Semiring α] [DecidableEq α] (M : MATRIX α)
    (x : List α) (hx : x.length = M.ncols) (r : List α) (hr : M.nrows ≤ r.length) (i : Nat)
    (hi : i < M.nrows) :
    (MultiplyELL (CreateELL M) x r).getD i 0
      = ∑ j in Finset.range M.ncols, M.mel i j * x.getD j 0 := by
  rw [MultiplyELL_getD (CreateELL M) x r i 0 hi hr, rowELL_CreateELL M x i hi,
    sparseRow_eq_sum]

/-- Scenario 3 for the ELL kernel, with a declared `nnz` that is wrong: the
result is still `[3,3]` and row `1` is the dense sum. -/
theorem C2_MultiplyELL_dense_product_witness :
    MultiplyELL (CreateELL exampleM) [1, 1, 1] [7, 7] = [3, 3] ∧
    (MultiplyELL (CreateELL (MATRIX.ofRows 2 3 7 [[1, 2, 0], [0, 0, 3]])) [1, 1, 1] [7, 7]).getD
        1 0
      = ∑ j in Finset.range 3,
          (MATRIX.ofRows 2 3 7 [[1, 2, 0], [0, 0, 3]] : MATRIX Int).mel 1 j
            * ([1, 1, 1] : List Int).getD j 0 :=
  ⟨by decide,
    C2_MultiplyELL_dense_product (MATRIX.ofRows 2 3 7 [[1, 2, 0], [0, 0, 3]]) [1, 1, 1]
      (by decide) [7, 7] (by decide) 1 (by decide)⟩

/-- C3: for a dense matrix `M` with a consistent `nnz`, a vector `x` of length
`ncols`, an output buffer of at least `max(nrows, ncols)` cells for the BCRS
kernel and one of at least `nrows` cells for the ELL kernel, the first `nrows`
entries written by `MultiplyBCRS(CreateBCRS(M), x, .)` and by
`MultiplyELL(CreateELL(M), x, .)` are the same list, and each of them is
the left-to-right sum, from `0`, of the products `M[i][j] * x[j]` over the nonzero
columns `j` of row `i`; no law of `+` or `*` is used, so the two results are equal
term by term. -/
theorem C3_kernels_agree {α : Type} [Zero α] [Add α] [Mul α] [DecidableEq α] (M : MATRIX α)
    (hnnz : M.nnz = trueNnz M) (x : List α) (hx : x.length = M.ncols) (r1 r2 : List α)
    (hmax : max M.nrows M.ncols ≤ r1.length) (hr2 : M.nrows ≤ r2.length) :
    (MultiplyBCRS (CreateBCRS M) x r1).take M.nrows
      = (MultiplyELL (CreateELL M) x r2).take M.nrows ∧
    ∀ i, i < M.nrows →
      (MultiplyBCRS (CreateBCRS M) x r1).getD i 0 = sparseRow M x i ∧
      (MultiplyELL (CreateELL M) x r2).getD i 0 = sparseRow M x i := by
  have hr1 : M.nrows ≤ r1.length := Nat.le_trans (Nat.le_max_left _ _) hmax
  have hrow : ∀ i, i < M.nrows →
      (MultiplyBCRS (CreateBCRS M) x r1).getD i 0 = sparseRow M x i ∧
      (MultiplyELL (CreateELL M) x r2).getD i 0 = sparseRow M x i := by
    intro i hi
    exact ⟨by rw [MultiplyBCRS_getD (CreateBCRS M) x r1 i 0 hi hr1,
        rowBCRS_CreateBCRS M hnnz x i hi],
      by rw [MultiplyELL_getD (CreateELL M) x r2 i 0 hi hr2, rowELL_CreateELL M x i hi]⟩
  refine ⟨?_, hrow⟩
  have hl1 : (MultiplyBCRS (CreateBCRS M) x r1).length = r1.length := by
    unfold MultiplyBCRS
    rw [foldl_set_range, length_writeSeq, length_memsetZero]
  have hl2 : (MultiplyELL (CreateELL M) x r2).length = r2.length := by
    unfold MultiplyELL
    rw [foldl_set_range, length_writeSeq, length_memsetZero]
  apply List.ext_getElem
  · rw [List.length_take, List.length_take, hl1, hl2, Nat.min_eq_left hr1, Nat.min_eq_left hr2]
  · intro i h1 h2
    have hi : i < M.nrows := by
      rw [List.length_take] at h1; omega
    rw [List.getElem_take, List.getElem_take,
      ← List.getD_eq_getElem _ 0 (by rw [hl1]; omega),
      ← List.getD_eq_getElem _ 0 (by rw [hl2]; omega), (hrow i hi).1, (hrow i hi).2]

/-- Scenario 3 for both kernels, with different prior contents of the two output
buffers. -/
theorem C3_kernels_agree_witness :
    (MultiplyBCRS (CreateBCRS exampleM) [1, 1, 1] [7, 7, 7]).take 2
      = (MultiplyELL (CreateELL exampleM) [1, 1, 1] [5, 6]).take 2 :=
  (C3_kernels_agree exampleM (by decide) [1, 1, 1] (by decide) [7, 7, 7] [5, 6] (by decide)
    (by decide)).1

end Products

/-! ## The arrays of the built BCRS -/

section BCRSClaims

variable {α : Type} [Zero α] [DecidableEq α]

theorem rowPtr_getD (M : MATRIX α) (i : Nat) (hi : i ≤ M.nrows) :
    (CreateBCRS M).rowPtr.getD i 0 = blocksBefore M i := by
  rw [CreateBCRS_rowPtr, getD_map_range _ _ _ _ (by omega)]

theorem blocksBefore_mono (M : MATRIX α) (a b : Nat) (hab : a ≤ b) :
    blocksBefore M a ≤ blocksBefore M b := by
  induction hab with
  | refl => exact Nat.le_refl _
  | step _ ih => rw [blocksBefore_succ]; omega

theorem exists_row_of_block (M : MATRIX α) (b k : Nat) (hb : b < blocksBefore M k) :
    ∃ i, i < k ∧ blocksBefore M i ≤ b ∧ b < blocksBefore M (i + 1) := by
  induction k with
  | zero => exact absurd hb (Nat.not_lt_zero _)
  | succ k ih =>
    by_cases h : b < blocksBefore M k
    · obtain ⟨i, hi, h1, h2⟩ := ih h
      exact ⟨i, by omega, h1, h2⟩
    · exact ⟨k, by omega, by omega, hb⟩

theorem block_in_row (M : MATRIX α) (i b : Nat) (hi : i < M.nrows)
    (h1 : (CreateBCRS M).rowPtr.getD i 0 ≤ b) (h2 : b < (CreateBCRS M).rowPtr.getD (i + 1) 0) :
    b - blocksBefore M i < (runs M i).length ∧ b = blocksBefore M i + (b - blocksBefore M i) := by
  rw [rowPtr_getD M i (by omega)] at h1
  rw [rowPtr_getD M (i + 1) (by omega), blocksBefore_succ, ← length_runs] at h2
  omega

theorem getD_runs_mem (M : MATRIX α) (i q : Nat) (hq : q < (runs M i).length) :
    (runs M i).getD q (0, 0) ∈ runs M i := by
  rw [List.getD_eq_getElem _ _ hq]
  exact List.getElem_mem _

/-- C4: in the BCRS built from a matrix with a consistent `nnz`, every block `b`
of a row `i` (`rowPtr[i] ≤ b < rowPtr[i+1]`) with start column `c = colInd[b]` and
length `L = nnzPtr[b+1] - nnzPtr[b]` has `L ≥ 1` and `c + L ≤ ncols`, the cells
`M[i][c+t]`, `t < L`, are nonzero and equal to `value[nnzPtr[b]+t]`, the cell
before the block is zero or absent, and the cell after it is zero or absent. -/
theorem C4_BCRS_blocks_are_maximal_runs (M : MATRIX α) (hnnz : M.nnz = trueNnz M) (i b : Nat)
    (hi : i < M.nrows) (hlo : (CreateBCRS M).rowPtr.getD i 0 ≤ b)
    (hhi : b < (CreateBCRS M).rowPtr.getD (i + 1) 0) :
    1 ≤ (CreateBCRS M).nnzPtr.getD (b + 1) 0 - (CreateBCRS M).nnzPtr.getD b 0 ∧
    (CreateBCRS M).colInd.getD b 0
      + ((CreateBCRS M).nnzPtr.getD (b + 1) 0 - (CreateBCRS M).nnzPtr.getD b 0) ≤ M.ncols ∧
    (∀ t, t < (CreateBCRS M).nnzPtr.getD (b + 1) 0 - (CreateBCRS M).nnzPtr.getD b 0 →
      M.mel i ((CreateBCRS M).colInd.getD b 0 + t) ≠ 0 ∧
      (CreateBCRS M).value.getD ((CreateBCRS M).nnzPtr.getD b 0 + t) 0
        = M.mel i ((CreateBCRS M).colInd.getD b 0 + t)) ∧
    ((CreateBCRS M).colInd.getD b 0 = 0 ∨ M.mel i ((CreateBCRS M).colInd.getD b 0 - 1) = 0) ∧
    ((CreateBCRS M).colInd.getD b 0
        + ((CreateBCRS M).nnzPtr.getD (b + 1) 0 - (CreateBCRS M).nnzPtr.getD b 0) = M.ncols ∨
      M.mel i ((CreateBCRS M).colInd.getD b 0
        + ((CreateBCRS M).nnzPtr.getD (b + 1) 0 - (CreateBCRS M).nnzPtr.getD b 0)) = 0) := by
  obtain ⟨hq, hb⟩ := block_in_row M i b hi hlo hhi
  obtain ⟨h1, h2, h3, h4⟩ := CreateBCRS_block M hnnz i _ hi hq
  rw [← hb] at h1 h2 h3
  obtain ⟨m1, m2, m3, m4, m5⟩ := runs_maximal M i _ (getD_runs_mem M i _ hq)
  rw [h1, h2, h3, Nat.add_sub_cancel_left]
  exact ⟨m1, m2, fun t ht => ⟨m3 t ht, h4 t ht⟩, m4, m5⟩

/-- The two blocks of scenario 3: block `0` of row `0` is the run of columns `0`
and `1`, block `1` of row `1` is the run of column `2`. -/
theorem C4_BCRS_blocks_are_maximal_runs_witness :
    (1 ≤ (CreateBCRS exampleM).nnzPtr.getD (0 + 1) 0 - (CreateBCRS exampleM).nnzPtr.getD 0 0) ∧
    (CreateBCRS exampleM).colInd.getD 0 0 = 0 ∧
    (CreateBCRS exampleM).nnzPtr.getD (0 + 1) 0 - (CreateBCRS exampleM).nnzPtr.getD 0 0 = 2 ∧
    exampleM.mel 0 2 = 0 :=
  ⟨(C4_BCRS_blocks_are_maximal_runs exampleM (by decide) 0 0 (by decide) (by decide)
      (by decide)).1, by decide, by decide, by decide⟩

/-- C5: for a matrix whose declared `nnz` is its true number `N` of nonzero
cells, the fill pass of `CreateBCRS` stores exactly `N` entries into `value`
(its cursor `index` ends at `N`), `value` has `N` entries, it is the list of the
nonzero cells in row-major order, and none of its entries is zero. -/
theorem C5_BCRS_value_row_major (M : MATRIX α) (hnnz : M.nnz = trueNnz M) :
    (fillBCRS M).index = M.nnz ∧ (CreateBCRS M).value.length = M.nnz ∧
    (CreateBCRS M).value = nonzeroCells M ∧ ∀ v ∈ (CreateBCRS M).value, v ≠ 0 := by
  have hv : (CreateBCRS M).value = nonzeroCells M := by
    rw [CreateBCRS_value M hnnz, nonzeroCells_eq]
  refine ⟨?_, ?_, hv, ?_⟩
  · rw [fillBCRS_eq, hnnz, trueNnz_eq]
  · rw [CreateBCRS_value M hnnz, length_allVals, hnnz, trueNnz_eq]
  · intro v hm
    rw [hv] at hm
    unfold nonzeroCells at hm
    simpa using (List.mem_filter.1 hm).2

/-- Scenario 3: `value = [1, 2, 3]`. -/
theorem C5_BCRS_value_row_major_witness :
    exampleM.nnz = trueNnz exampleM ∧ (CreateBCRS exampleM).value = [1, 2, 3] ∧
    (CreateBCRS exampleM).value = nonzeroCells exampleM :=
  ⟨by decide, by decide, (C5_BCRS_value_row_major exampleM (by decide)).2.2.1⟩

/-- C6: for every matrix with `R` rows, `rowPtr` of `CreateBCRS` has `R+1`
entries, `rowPtr[0] = 0`, `rowPtr` is non-decreasing, `rowPtr[i+1] - rowPtr[i]` is
the number of maximal runs of consecutive nonzero columns of row `i`, and
`rowPtr[R]` is the stored `nblocks`. -/
theorem C6_BCRS_rowPtr_structure (M : MATRIX α) :
    (CreateBCRS M).rowPtr.length = M.nrows + 1 ∧
    (CreateBCRS M).rowPtr.getD 0 0 = 0 ∧
    (∀ i j, i ≤ j → j ≤ M.nrows →
      (CreateBCRS M).rowPtr.getD i 0 ≤ (CreateBCRS M).rowPtr.getD j 0) ∧
    (∀ i, i < M.nrows →
      (CreateBCRS M).rowPtr.getD (i + 1) 0 - (CreateBCRS M).rowPtr.getD i 0
        = maximalRunCount M i) ∧
    (CreateBCRS M).rowPtr.getD M.nrows 0 = (CreateBCRS M).nblocks := by
  refine ⟨?_, ?_, ?_, ?_, ?_⟩
  · rw [CreateBCRS_rowPtr]; simp
  · rw [rowPtr_getD M 0 (Nat.zero_le _)]; rfl
  · intro i j hij hj
    rw [rowPtr_getD M i (by omega), rowPtr_getD M j hj]
    exact blocksBefore_mono M i j hij
  · intro i hi
    rw [rowPtr_getD M i (by omega), rowPtr_getD M (i + 1) (by omega), blocksBefore_succ,
      Nat.add_sub_cancel_left, maximalRunCount_eq, length_runs]
  · rw [rowPtr_getD M _ (Nat.le_refl _), CreateBCRS_nblocks]

/-- C7: for a matrix whose declared `nnz` is its true number `N` of nonzero
cells, `nnzPtr` of `CreateBCRS` has `nblocks + 1` entries; every block `b` lies in
a row `i` (`rowPtr[i] ≤ b < rowPtr[i+1]`) and `nnzPtr[b]` is the number of nonzero
cells that precede the cell `(i, colInd[b])` in row-major order; `nnzPtr[0] = 0`
when a block exists; `nnzPtr` is strictly increasing on `0..nblocks`; and
`nnzPtr[nblocks] = N`. -/
theorem C7_BCRS_nnzPtr_structure (M : MATRIX α) (hnnz : M.nnz = trueNnz M) :
    (CreateBCRS M).nnzPtr.length = (CreateBCRS M).nblocks + 1 ∧
    (∀ b, b < (CreateBCRS M).nblocks → ∃ i, i < M.nrows ∧
      (CreateBCRS M).rowPtr.getD i 0 ≤ b ∧ b < (CreateBCRS M).rowPtr.getD (i + 1) 0 ∧
      (CreateBCRS M).nnzPtr.getD b 0 = nzPreceding M i ((CreateBCRS M).colInd.getD b 0)) ∧
    (0 < (CreateBCRS M).nblocks → (CreateBCRS M).nnzPtr.getD 0 0 = 0) ∧
    (∀ b, b < (CreateBCRS M).nblocks →
      (CreateBCRS M).nnzPtr.getD b 0 < (CreateBCRS M).nnzPtr.getD (b + 1) 0) ∧
    (CreateBCRS M).nnzPtr.getD (CreateBCRS M).nblocks 0 = M.nnz := by
  have hrow : ∀ b, b < (CreateBCRS M).nblocks → ∃ i q, i < M.nrows ∧
      q < (runs M i).length ∧ b = blocksBefore M i + q := by
    intro b hb
    rw [CreateBCRS_nblocks] at hb
    obtain ⟨i, hi, h1, h2⟩ := exists_row_of_block M b M.nrows hb
    rw [blocksBefore_succ, ← length_runs] at h2
    exact ⟨i, b - blocksBefore M i, hi, by omega, by omega⟩
  refine ⟨?_, ?_, ?_, ?_, ?_⟩
  · rw [CreateBCRS_nnzPtr, CreateBCRS_nblocks, List.length_append, length_allPtrs]; rfl
  · intro b hb
    obtain ⟨i, q, hi, hq, hbq⟩ := hrow b hb
    obtain ⟨h1, h2, _, _⟩ := CreateBCRS_block M hnnz i q hi hq
    refine ⟨i, hi, ?_, ?_, ?_⟩
    · rw [rowPtr_getD M i (by omega)]; omega
    · rw [rowPtr_getD M (i + 1) (by omega), blocksBefore_succ, ← length_runs]; omega
    · rw [hbq, h1, h2]
  · intro hpos
    rw [CreateBCRS_nblocks, ← length_allPtrs] at hpos
    rw [CreateBCRS_nnzPtr, List.getD_append _ _ _ _ hpos, allPtrs_eq_offsets]
    rw [allPtrs_eq_offsets, length_offsets] at hpos
    rw [getD_offsets _ _ _ hpos]
    rfl
  · intro b hb
    obtain ⟨i, q, hi, hq, hbq⟩ := hrow b hb
    obtain ⟨_, h2, h3, _⟩ := CreateBCRS_block M hnnz i q hi hq
    have hm := (runs_maximal M i _ (getD_runs_mem M i q hq)).1
    rw [hbq, h2, h3]
    omega
  · rw [CreateBCRS_nnzPtr, CreateBCRS_nblocks, ← length_allPtrs,
      List.getD_append_right _ _ _ _ (Nat.le_refl _), Nat.sub_self]
    rfl

/-- Scenario 3: `nnzPtr = [0, 2, 3]` with `nblocks = 2` and `nnz = 3`. -/
theorem C7_BCRS_nnzPtr_structure_witness :
    exampleM.nnz = trueNnz exampleM ∧ (CreateBCRS exampleM).nnzPtr = [0, 2, 3] ∧
    (CreateBCRS exampleM).nnzPtr.length = (CreateBCRS exampleM).nblocks + 1 :=
  ⟨by decide, by decide, (C7_BCRS_nnzPtr_structure exampleM (by decide)).1⟩

end BCRSClaims

/-! ## The width and the rows of the built ELL -/

section ELLClaims

variable {α : Type} [Zero α] [DecidableEq α]

theorem rowCount_eq_zero (M : MATRIX α) (i : Nat) (h : ∀ j, j < M.ncols → M.mel i j = 0) :
    rowCount M i = 0 := by
  unfold rowCount nzCount
  rw [List.countP_eq_zero]
  intro j hj
  simpa using h j (List.mem_range.1 hj)

/-- C8: `compute_max_entries_per_row(M)`, which `CreateELL` stores as
`max_entries_per_row`, is at least the nonzero count of every row, is the nonzero
count of some row when there is a row, and is `0` when there is no row or no
nonzero cell. -/
theorem C8_ELL_width_is_row_maximum (M : MATRIX α) :
    (∀ i, i < M.nrows → rowCount M i ≤ compute_max_entries_per_row M) ∧
    (0 < M.nrows → ∃ i, i < M.nrows ∧ compute_max_entries_per_row M = rowCount M i) ∧
    (M.nrows = 0 → compute_max_entries_per_row M = 0) ∧
    ((∀ i j, i < M.nrows → j < M.ncols → M.mel i j = 0) → compute_max_entries_per_row M = 0) ∧
    (CreateELL M).max_entries_per_row = compute_max_entries_per_row M := by
  obtain ⟨h1, h2, h3⟩ := max_entries_spec M M.nrows
  refine ⟨h1, h2, h3, ?_, rfl⟩
  intro hz
  rcases Nat.eq_zero_or_pos M.nrows with h0 | hpos
  · exact h3 h0
  · obtain ⟨i, hi, he⟩ := h2 hpos
    have : compute_max_entries_per_row M = rowCount M i := he
    rw [this]
    exact rowCount_eq_zero M i (fun j hj => hz i j hi hj)

theorem length_ELL_rows (M : MATRIX α) (i : Nat) (hi : i < M.nrows) :
    ((CreateELL M).indices.getD i []).length = compute_max_entries_per_row M ∧
    ((CreateELL M).values.getD i []).length = compute_max_entries_per_row M := by
  have hle := rowCount_le_max M i hi
  have hcnt : (nzCols M i M.ncols).length = rowCount M i := by rw [rowCount, nzCount_eq]
  rw [CreateELL_indices_row M i hi, CreateELL_values_row M i hi]
  simp only [List.length_append, List.length_map, List.length_replicate, hcnt]
  omega

/-- C9: in the ELL built from any matrix, every slot `j` of a row `i` with
`count(i) ≤ j < max_entries_per_row` holds the column `-1` and the value `0`
(whatever the default of an out-of-range read would be). -/
theorem C9_ELL_padding (M : MATRIX α) (i j : Nat) (hi : i < M.nrows) (hlo : rowCount M i ≤ j)
    (hhi : j < (CreateELL M).max_entries_per_row) (dI : Int) (dV : α) :
    ((CreateELL M).indices.getD i []).getD j dI = -1 ∧
    ((CreateELL M).values.getD i []).getD j dV = 0 := by
  have hW : (CreateELL M).max_entries_per_row = compute_max_entries_per_row M := rfl
  rw [hW] at hhi
  have hcnt : (nzCols M i M.ncols).length = rowCount M i := by rw [rowCount, nzCount_eq]
  rw [CreateELL_indices_row M i hi, CreateELL_values_row M i hi,
    List.getD_append_right _ _ _ _ (by rw [List.length_map, hcnt]; exact hlo),
    List.getD_append_right _ _ _ _ (by rw [List.length_map, hcnt]; exact hlo),
    getD_replicate_lt _ _ _ _ (by rw [List.length_map, hcnt]; omega),
    getD_replicate_lt _ _ _ _ (by rw [List.length_map, hcnt]; omega)]
  exact ⟨rfl, rfl⟩

/-- Scenario 3: row `1` has one nonzero cell and width `2`, so its slot `1` is
padding. -/
theorem C9_ELL_padding_witness :
    rowCount exampleM 1 ≤ 1 ∧ 1 < (CreateELL exampleM).max_entries_per_row ∧
    ((CreateELL exampleM).indices.getD 1 []).getD 1 7 = -1 ∧
    ((CreateELL exampleM).values.getD 1 []).getD 1 7 = 0 :=
  ⟨by decide, by decide,
    C9_ELL_padding exampleM 1 1 (by decide) (by decide) (by decide) 7 7⟩

theorem nzCount_getElem_nzCols (M : MATRIX α) (i n : Nat) :
    ∀ (j : Nat) (h : j < (nzCols M i n).length), nzCount M i ((nzCols M i n)[j]) = j := by
  induction n with
  | zero => intro j h; simp [nzCols] at h
  | succ n ih =>
    intro j h
    by_cases hz : M.mel i n = 0
    · have he : nzCols M i (n + 1) = nzCols M i n := by rw [nzCols_succ, if_neg (by simpa using hz)]
      simp only [he] at h ⊢
      exact ih j h
    · have he : nzCols M i (n + 1) = nzCols M i n ++ [n] := by rw [nzCols_succ, if_pos hz]
      simp only [he] at h ⊢
      by_cases hj : j < (nzCols M i n).length
      · rw [List.getElem_append_left hj]
        exact ih j hj
      · have hje : j = (nzCols M i n).length := by
          rw [List.length_append, List.length_singleton] at h; omega
        subst hje
        rw [List.getElem_append_right (Nat.le_refl _)]
        simp [nzCount_eq]

theorem nzCols_pairwise (M : MATRIX α) (i n : Nat) : (nzCols M i n).Pairwise (· < ·) :=
  (List.pairwise_lt_range n).filter _

/-- C10: in the ELL built from any matrix, slot `j < count(i)` of row `i` holds
the column `c` of the `(j+1)`-th nonzero cell of the row from the left (`c` is a
column, `M[i][c]` is nonzero and exactly `j` nonzero cells lie left of it) and
the value `M[i][c]`; so the stored column is in `[0, ncols)` and the stored
columns of the slots below `count(i)` are strictly increasing. -/
theorem C10_ELL_valid_entries (M : MATRIX α) (i j : Nat) (hi : i < M.nrows)
    (hj : j < rowCount M i) (dI : Int) (dV : α) :
    (∃ c, c < M.ncols ∧ M.mel i c ≠ 0 ∧ nzCount M i c = j ∧
      ((CreateELL M).indices.getD i []).getD j dI = (c : Int) ∧
      ((CreateELL M).values.getD i []).getD j dV = M.mel i c) ∧
    0 ≤ ((CreateELL M).indices.getD i []).getD j dI ∧
    ((CreateELL M).indices.getD i []).getD j dI < (M.ncols : Int) ∧
    ((CreateELL M).values.getD i []).getD j dV ≠ 0 ∧
    ∀ j', j' < j →
      ((CreateELL M).indices.getD i []).getD j' dI
        < ((CreateELL M).indices.getD i []).getD j dI := by
  have hcnt : (nzCols M i M.ncols).length = rowCount M i := by rw [rowCount, nzCount_eq]
  have hjl : j < (nzCols M i M.ncols).length := by rw [hcnt]; exact hj
  have hidx : ∀ q (hq : q < (nzCols M i M.ncols).length),
      ((CreateELL M).indices.getD i []).getD q dI = (((nzCols M i M.ncols)[q] : Nat) : Int) := by
    intro q hq
    have hq1 : q < ((nzCols M i M.ncols).map (fun j : Nat => (j : Int))).length := by
      simpa using hq
    rw [CreateELL_indices_row M i hi, List.getD_append _ _ _ _ hq1,
      List.getD_eq_getElem _ _ hq1, List.getElem_map]
  have hval : ((CreateELL M).values.getD i []).getD j dV = M.mel i ((nzCols M i M.ncols)[j]) := by
    have hq2 : j < ((nzCols M i M.ncols).map (M.mel i)).length := by simpa using hjl
    rw [CreateELL_values_row M i hi, List.getD_append _ _ _ _ hq2,
      List.getD_eq_getElem _ _ hq2, List.getElem_map]
  have hmem : (nzCols M i M.ncols)[j] ∈ nzCols M i M.ncols := List.getElem_mem _
  rw [mem_nzCols] at hmem
  refine ⟨⟨(nzCols M i M.ncols)[j], hmem.1, hmem.2, nzCount_getElem_nzCols M i _ j hjl,
    hidx j hjl, hval⟩, ?_, ?_, ?_, ?_⟩
  · rw [hidx j hjl]; exact Int.ofNat_nonneg _
  · rw [hidx j hjl]; exact Int.ofNat_lt.2 hmem.1
  · rw [hval]; exact hmem.2
  · intro j' hj'
    rw [hidx j' (by omega), hidx j hjl]
    exact Int.ofNat_lt.2
      (List.pairwise_iff_getElem.1 (nzCols_pairwise M i M.ncols) j' j (by omega) hjl hj')

/-- Scenario 3: slot `1` of row `0` holds column `1` and the value `2`. -/
theorem C10_ELL_valid_entries_witness :
    1 < rowCount exampleM 0 ∧ ((CreateELL exampleM).indices.getD 0 []).getD 1 7 = 1 ∧
    ((CreateELL exampleM).values.getD 0 []).getD 1 7 = 2 ∧
    0 ≤ ((CreateELL exampleM).indices.getD 0 []).getD 1 7 :=
  ⟨by decide, by decide, by decide,
    (C10_ELL_valid_entries exampleM 0 1 (by decide) (by decide) 7 7).2.1⟩

end ELLClaims

/-! ## The output buffer of the kernels -/

section Buffer

variable {α : Type} [Zero α] [Add α] [Mul α]

theorem getD_writeSeq_any {β : Type} (l : List β) : ∀ (a : List β) (i p : Nat) (d : β),
    (writeSeq a i l).getD p d
      = if i ≤ p ∧ p < i + l.length ∧ p < a.length then l.getD (p - i) d else a.getD p d := by
  induction l with
  | nil =>
    intro a i p d
    rw [if_neg (by simp; omega)]
    rfl
  | cons v l ih =>
    intro a i p d
    rw [writeSeq, ih, List.length_set, List.length_cons]
    by_cases hpi : p = i
    · subst hpi
      rw [if_neg (by omega)]
      by_cases hlt : p < a.length
      · rw [if_pos ⟨Nat.le_refl _, by omega, hlt⟩, Nat.sub_self,
          List.getD_eq_getElem _ _ (by simpa using hlt), List.getElem_set_self]
        rfl
      · rw [if_neg (by omega), List.set_eq_of_length_le (by omega)]
    · have hset : (a.set i v).getD p d = a.getD p d := by
        by_cases hlt : p < a.length
        · rw [List.getD_eq_getElem _ _ (by simpa using hlt), List.getD_eq_getElem _ _ hlt,
            List.getElem_set_ne (fun h => hpi h.symm)]
        · rw [List.getD_eq_default _ _ (by simp; omega), List.getD_eq_default _ _ (by omega)]
      rw [hset]
      by_cases hc : i + 1 ≤ p ∧ p < i + 1 + l.length ∧ p < a.length
      · rw [if_pos hc, if_pos ⟨by omega, by omega, hc.2.2⟩]
        have : p - i = (p - (i + 1)) + 1 := by omega
        rw [this]
        rfl
      · rw [if_neg hc, if_neg (by omega)]

theorem getD_memsetZero (r : List α) (n p : Nat) (d : α) :
    (memsetZero r n).getD p d = if p < n ∧ p < r.length then 0 else r.getD p d := by
  unfold memsetZero
  rw [foldl_set_range, getD_writeSeq_any]
  by_cases h : p < n ∧ p < r.length
  · rw [if_pos h, if_pos ⟨Nat.zero_le _, by simpa using h.1, h.2⟩,
      getD_map_range _ _ _ _ (by omega)]
  · rw [if_neg h, if_neg (by simp; omega)]

theorem length_MultiplyBCRS (c : BCRS α) (x r : List α) :
    (MultiplyBCRS c x r).length = r.length := by
  unfold MultiplyBCRS
  rw [foldl_set_range, length_writeSeq, length_memsetZero]

theorem length_MultiplyELL (e : ELL α) (x r : List α) :
    (MultiplyELL e x r).length = r.length := by
  unfold MultiplyELL
  rw [foldl_set_range, length_writeSeq, length_memsetZero]

/-- Every entry of the buffer after `MultiplyBCRS`. -/
theorem getD_MultiplyBCRS (c : BCRS α) (x r : List α) (p : Nat) (d : α) :
    (MultiplyBCRS c x r).getD p d
      = if p < c.nrows ∧ p < r.length then rowBCRS c x p
        else if p < c.ncols ∧ p < r.length then 0 else r.getD p d := by
  unfold MultiplyBCRS
  rw [foldl_set_range, getD_writeSeq_any, length_memsetZero, getD_memsetZero]
  by_cases h : p < c.nrows ∧ p < r.length
  · rw [if_pos h, if_pos ⟨Nat.zero_le _, by simpa using h.1, h.2⟩,
      getD_map_range _ _ _ _ (by omega), Nat.sub_zero]
  · rw [if_neg h, if_neg (by simp; omega)]

/-- Every entry of the buffer after `MultiplyELL`. -/
theorem getD_MultiplyELL (e : ELL α) (x r : List α) (p : Nat) (d : α) :
    (MultiplyELL e x r).getD p d
      = if p < e.nrows ∧ p < r.length then rowELL e x p else r.getD p d := by
  unfold MultiplyELL
  rw [foldl_set_range, getD_writeSeq_any, length_memsetZero, getD_memsetZero]
  by_cases h : p < e.nrows ∧ p < r.length
  · rw [if_pos ⟨Nat.zero_le _, by simpa using h.1, h.2⟩,
      getD_map_range _ _ _ _ (by omega), Nat.sub_zero, if_pos h]
  · rw [if_neg (by simp; omega), if_neg h, if_neg h]

theorem ext_getD {β : Type} (d : β) (l1 l2 : List β) (hl : l1.length = l2.length)
    (h : ∀ p, p < l1.length → l1.getD p d = l2.getD p d) : l1 = l2 := by
  apply List.ext_getElem hl
  intro p h1 h2
  have := h p h1
  rw [List.getD_eq_getElem _ _ h1, List.getD_eq_getElem _ _ h2] at this
  exact this

theorem take_eq_of_getD {β : Type} (d : β) (l1 l2 : List β) (n : Nat) (h1 : n ≤ l1.length)
    (h2 : n ≤ l2.length) (h : ∀ p, p < n → l1.getD p d = l2.getD p d) :
    l1.take n = l2.take n := by
  apply List.ext_getElem
  · rw [List.length_take, List.length_take, Nat.min_eq_left h1, Nat.min_eq_left h2]
  · intro p hp1 hp2
    have hp : p < n := by rw [List.length_take] at hp1; omega
    have := h p hp
    rw [List.getD_eq_getElem _ _ (by omega), List.getD_eq_getElem _ _ (by omega)] at this
    rw [List.getElem_take, List.getElem_take]
    exact this

/-- C11: both kernels overwrite their output. For every BCRS `c`, every ELL `e`,
every `x` and two output buffers of the same length with arbitrary prior
contents, at least `max(nrows, ncols)` of `c` (the cells `MultiplyBCRS` clears
and stores to) and at least `nrows` of `e`, the first `nrows` entries after the
call are the same for both buffers, and a second call on the buffer the first
call returned changes nothing. -/
theorem C11_kernels_overwrite (c : BCRS α) (e : ELL α) (x r1 r2 : List α)
    (hlen : r1.length = r2.length) (hmax : max c.nrows c.ncols ≤ r1.length)
    (he : e.nrows ≤ r1.length) :
    (MultiplyBCRS c x r1).take c.nrows = (MultiplyBCRS c x r2).take c.nrows ∧
    MultiplyBCRS c x (MultiplyBCRS c x r1) = MultiplyBCRS c x r1 ∧
    (MultiplyELL e x r1).take e.nrows = (MultiplyELL e x r2).take e.nrows ∧
    MultiplyELL e x (MultiplyELL e x r1) = MultiplyELL e x r1 := by
  have hc : c.nrows ≤ r1.length := Nat.le_trans (Nat.le_max_left _ _) hmax
  refine ⟨?_, ?_, ?_, ?_⟩
  · apply take_eq_of_getD 0 _ _ _ (by rw [length_MultiplyBCRS]; exact hc)
      (by rw [length_MultiplyBCRS, ← hlen]; exact hc)
    intro p hp
    rw [getD_MultiplyBCRS, getD_MultiplyBCRS, if_pos ⟨hp, by omega⟩, if_pos ⟨hp, by omega⟩]
  · apply ext_getD 0
    · rw [length_MultiplyBCRS]
    · intro p _
      rw [getD_MultiplyBCRS c x (MultiplyBCRS c x r1), length_MultiplyBCRS,
        getD_MultiplyBCRS c x r1]
      by_cases h1 : p < c.nrows ∧ p < r1.length
      · simp only [if_pos h1]
      · simp only [if_neg h1]
        by_cases h2 : p < c.ncols ∧ p < r1.length
        · simp only [if_pos h2]
        · simp only [if_neg h2]
  · apply take_eq_of_getD 0 _ _ _ (by rw [length_MultiplyELL]; exact he)
      (by rw [length_MultiplyELL, ← hlen]; exact he)
    intro p hp
    rw [getD_MultiplyELL, getD_MultiplyELL, if_pos ⟨hp, by omega⟩, if_pos ⟨hp, by omega⟩]
  · apply ext_getD 0
    · rw [length_MultiplyELL]
    · intro p _
      rw [getD_MultiplyELL e x (MultiplyELL e x r1), length_MultiplyELL,
        getD_MultiplyELL e x r1]
      by_cases h1 : p < e.nrows ∧ p < r1.length
      · simp only [if_pos h1]
      · simp only [if_neg h1]

/-- Scenario 3 with two buffers of different prior contents: the results agree
on the first two entries, for both kernels. -/
theorem C11_kernels_overwrite_witness :
    (MultiplyBCRS (CreateBCRS exampleM) [1, 1, 1] [7, 8, 9]).take 2
      = (MultiplyBCRS (CreateBCRS exampleM) [1, 1, 1] [4, 5, 6]).take 2 ∧
    MultiplyBCRS (CreateBCRS exampleM) [1, 1, 1] [7, 8, 9] = [3, 3, 0] ∧
    MultiplyELL (CreateELL exampleM) [1, 1, 1] [7, 8, 9] = [3, 3, 9] :=
  ⟨(C11_kernels_overwrite (CreateBCRS exampleM) (CreateELL exampleM) [1, 1, 1] [7, 8, 9]
      [4, 5, 6] (by decide) (by decide) (by decide)).1, by decide, by decide⟩

/-- C18: for every BCRS `c` and every output buffer of length at least
`max(nrows, ncols)`, `MultiplyBCRS` stores the `nrows` results in the entries
`0..nrows-1`, leaves `0` in every entry `i` with `nrows ≤ i < ncols` whatever it
held before, and leaves every entry `i ≥ max(nrows, ncols)` unchanged;
`MultiplyELL` leaves every entry `i ≥ nrows` unchanged. -/
theorem C18_BCRS_clears_by_ncols (c : BCRS α) (e : ELL α) (x r : List α)
    (hr : max c.nrows c.ncols ≤ r.length) :
    (MultiplyBCRS c x r).length = r.length ∧
    (∀ i, i < c.nrows → ∀ d, (MultiplyBCRS c x r).getD i d = rowBCRS c x i) ∧
    (∀ i, c.nrows ≤ i → i < c.ncols → ∀ d, (MultiplyBCRS c x r).getD i d = 0) ∧
    (∀ i, max c.nrows c.ncols ≤ i → ∀ d, (MultiplyBCRS c x r).getD i d = r.getD i d) ∧
    (∀ i, e.nrows ≤ i → ∀ d, (MultiplyELL e x r).getD i d = r.getD i d) := by
  have h1 : c.nrows ≤ r.length := Nat.le_trans (Nat.le_max_left _ _) hr
  have h2 : c.ncols ≤ r.length := Nat.le_trans (Nat.le_max_right _ _) hr
  refine ⟨length_MultiplyBCRS c x r, ?_, ?_, ?_, ?_⟩
  · intro i hi d
    rw [getD_MultiplyBCRS, if_pos ⟨hi, by omega⟩]
  · intro i hlo hhi d
    rw [getD_MultiplyBCRS, if_neg (by omega), if_pos ⟨hhi, by omega⟩]
  · intro i hi d
    have h3 : c.nrows ≤ i := Nat.le_trans (Nat.le_max_left _ _) hi
    have h4 : c.ncols ≤ i := Nat.le_trans (Nat.le_max_right _ _) hi
    rw [getD_MultiplyBCRS, if_neg (by omega), if_neg (by omega)]
  · intro i hi d
    rw [getD_MultiplyELL, if_neg (by omega)]

/-- Scenario 3 (2 rows, 3 columns) on a buffer of four entries: the BCRS kernel
clears entry `2` and keeps entry `3`; the ELL kernel keeps both. -/
theorem C18_BCRS_clears_by_ncols_witness :
    MultiplyBCRS (CreateBCRS exampleM) [1, 1, 1] [7, 8, 9, 6] = [3, 3, 0, 6] ∧
    MultiplyELL (CreateELL exampleM) [1, 1, 1] [7, 8, 9, 6] = [3, 3, 9, 6] ∧
    (MultiplyBCRS (CreateBCRS exampleM) [1, 1, 1] [7, 8, 9, 6]).length = 4 :=
  ⟨by decide, by decide,
    (C18_BCRS_clears_by_ncols (CreateBCRS exampleM) (CreateELL exampleM) [1, 1, 1]
      [7, 8, 9, 6] (by decide)).1⟩

end Buffer

/-! ## Zero rows, the two passes of `CreateBCRS`, the cursor of `CreateELL` -/

section Passes

variable {α : Type} [Zero α] [DecidableEq α]

theorem nzCols_eq_nil (M : MATRIX α) (i : Nat) (h : ∀ j, j < M.ncols → M.mel i j = 0) :
    nzCols M i M.ncols = [] := by
  have := rowCount_eq_zero M i h
  rw [rowCount, nzCount_eq] at this
  exact List.length_eq_zero.1 this

theorem startCols_eq_nil (M : MATRIX α) (i : Nat) (h : ∀ j, j < M.ncols → M.mel i j = 0) :
    startCols M i M.ncols = [] := by
  unfold startCols
  rw [List.filter_eq_nil_iff]
  intro j hj
  simp [h j (List.mem_range.1 hj)]

/-- C14: a row `i` of `M` whose cells are all zero gives no block to
`CreateBCRS(M)` (`rowPtr[i+1] = rowPtr[i]`) and a row of `CreateELL(M)` made of
padding only: column `-1` and value `0` in every slot below
`max_entries_per_row`. -/
theorem C14_all_zero_row (M : MATRIX α) (i : Nat) (hi : i < M.nrows)
    (hz : ∀ j, j < M.ncols → M.mel i j = 0) :
    (CreateBCRS M).rowPtr.getD (i + 1) 0 = (CreateBCRS M).rowPtr.getD i 0 ∧
    ∀ j, j < (CreateELL M).max_entries_per_row → ∀ (dI : Int) (dV : α),
      ((CreateELL M).indices.getD i []).getD j dI = -1 ∧
      ((CreateELL M).values.getD i []).getD j dV = 0 := by
  constructor
  · rw [rowPtr_getD M i (by omega), rowPtr_getD M (i + 1) (by omega), blocksBefore_succ,
      startCols_eq_nil M i hz]
    rfl
  · intro j hj dI dV
    have hW : (CreateELL M).max_entries_per_row = compute_max_entries_per_row M := rfl
    rw [hW] at hj
    rw [CreateELL_indices_row M i hi, CreateELL_values_row M i hi, nzCols_eq_nil M i hz,
      rowCount_eq_zero M i hz]
    simp only [List.map_nil, List.nil_append, Nat.sub_zero]
    rw [getD_replicate_lt _ _ _ _ hj, getD_replicate_lt _ _ _ _ hj]
    exact ⟨rfl, rfl⟩

/-- The matrix `[[0,0],[4,0]]`: its row `0` is all zero. -/
theorem C14_all_zero_row_witness :
    (CreateBCRS (MATRIX.ofRows 2 2 1 [[0, 0], [4, 0]] : MATRIX Int)).rowPtr = [0, 0, 1] ∧
    (CreateELL (MATRIX.ofRows 2 2 1 [[0, 0], [4, 0]] : MATRIX Int)).indices = [[-1], [0]] ∧
    (CreateBCRS (MATRIX.ofRows 2 2 1 [[0, 0], [4, 0]] : MATRIX Int)).rowPtr.getD (0 + 1) 0
      = (CreateBCRS (MATRIX.ofRows 2 2 1 [[0, 0], [4, 0]] : MATRIX Int)).rowPtr.getD 0 0 :=
  ⟨by decide, by decide,
    (C14_all_zero_row (MATRIX.ofRows 2 2 1 [[0, 0], [4, 0]]) 0 (by decide) (by decide)).1⟩

theorem fillBefore_block_number (M : MATRIX α) (k n : Nat) :
    (fillBefore M k n).block_number = blocksBefore M k + (startCols M k n).length := by
  unfold fillBefore
  rw [foldl_fillCell, foldl_fillRow M _ rfl rfl]

theorem length_startCols_mono (M : MATRIX α) (i a b : Nat) (hab : a ≤ b) :
    (startCols M i a).length ≤ (startCols M i b).length := by
  induction hab with
  | refl => exact Nat.le_refl _
  | step _ ih =>
    rw [startCols_succ]
    split
    · rw [List.length_append]; omega
    · exact ih

/-- C15: for every matrix (whatever its declared `nnz`) the count of
`countBlocks` is the final `block_number` of the fill pass of `CreateBCRS`, which
is `rowPtr[nrows]`, the stored `nblocks` and the length of `colInd`; and whenever
the fill pass stores into `colInd` and `nnzPtr` (at a nonzero cell in the first
column or right after a zero) the index `block_number` of the store is below
`countBlocks(M)`. -/
theorem C15_count_pass_equals_fill_pass (M : MATRIX α) :
    countBlocks M = (fillBCRS M).block_number ∧
    countBlocks M = (CreateBCRS M).rowPtr.getD M.nrows 0 ∧
    countBlocks M = (CreateBCRS M).nblocks ∧
    countBlocks M = (CreateBCRS M).colInd.length ∧
    ∀ k jj, k < M.nrows → jj < M.ncols → M.mel k jj ≠ 0 →
      (jj = 0 ∨ M.mel k (jj - 1) = 0) → (fillBefore M k jj).block_number < countBlocks M := by
  refine ⟨?_, ?_, rfl, ?_, ?_⟩
  · rw [fillBCRS_eq, countBlocks_eq]
  · rw [rowPtr_getD M _ (Nat.le_refl _), countBlocks_eq]
  · rw [CreateBCRS_colInd, length_allStarts, countBlocks_eq]
  · intro k jj hk hjj hnz hst
    rw [fillBefore_block_number, countBlocks_eq]
    have h1 : (startCols M k jj).length + 1 = (startCols M k (jj + 1)).length := by
      rw [startCols_succ, if_pos ⟨hnz, hst⟩, List.length_append]
      rfl
    have h2 := length_startCols_mono M k (jj + 1) M.ncols hjj
    have h3 := blocksBefore_mono M (k + 1) M.nrows hk
    rw [blocksBefore_succ] at h3
    omega

theorem nzCount_mono (M : MATRIX α) (i a b : Nat) (hab : a ≤ b) :
    nzCount M i a ≤ nzCount M i b := by
  induction hab with
  | refl => exact Nat.le_refl _
  | step _ ih =>
    rw [nzCount_succ]
    split
    · omega
    · exact ih

theorem ellCleared_values (M : MATRIX α) :
    (ellCleared M).values
      = (List.range M.nrows).map (fun _ => List.replicate (compute_max_entries_per_row M) 0) := by
  unfold ellCleared
  rw [ellClear_values, foldl_rows (fun _ old =>
    writeSeq old 0 ((List.range (compute_max_entries_per_row M)).map (fun _ => (0 : α))))]
  simp only [List.length_replicate]
  apply List.map_congr_left
  intro i hi
  have hi' : i < M.nrows := List.mem_range.1 hi
  rw [if_pos hi', getD_replicate_lt _ _ _ _ hi', map_const_range, writeSeq_full _ _ (by simp)]

theorem ellCleared_indices (M : MATRIX α) :
    (ellCleared M).indices
      = (List.range M.nrows).map
          (fun _ => List.replicate (compute_max_entries_per_row M) (-1)) := by
  unfold ellCleared
  rw [ellClear_indices, foldl_rows (fun _ old =>
    writeSeq old 0 ((List.range (compute_max_entries_per_row M)).map (fun _ => (-1 : Int))))]
  simp only [List.length_replicate]
  apply List.map_congr_left
  intro i hi
  have hi' : i < M.nrows := List.mem_range.1 hi
  rw [if_pos hi', getD_replicate_lt _ _ _ _ hi', map_const_range, writeSeq_full _ _ (by simp)]

/-- The rows the fill loop of `CreateELL` has not reached yet are as the clearing
loop left them. -/
theorem ellRows_untouched (M : MATRIX α) (i : Nat) (hi : i < M.nrows) :
    (((List.range i).foldl (ellRow M) (ellCleared M)).values.getD i []).length
      = compute_max_entries_per_row M ∧
    (((List.range i).foldl (ellRow M) (ellCleared M)).indices.getD i []).length
      = compute_max_entries_per_row M := by
  constructor
  · rw [foldl_proj EllState.values (ellRow M)
      (fun a i => a.set i (writeSeq (a.getD i []) 0 ((nzCols M i M.ncols).map (M.mel i))))
      (ellRow_values M), ellCleared_values,
      foldl_rows (fun i old => writeSeq old 0 ((nzCols M i M.ncols).map (M.mel i)))]
    simp only [List.length_map, List.length_range]
    rw [getD_map_range _ _ _ _ hi, if_neg (Nat.lt_irrefl _), getD_map_range _ _ _ _ hi,
      List.length_replicate]
  · rw [foldl_proj EllState.indices (ellRow M)
      (fun a i => a.set i
        (writeSeq (a.getD i []) 0 ((nzCols M i M.ncols).map (fun j : Nat => (j : Int)))))
      (ellRow_indices M), ellCleared_indices,
      foldl_rows (fun i old =>
        writeSeq old 0 ((nzCols M i M.ncols).map (fun j : Nat => (j : Int))))]
    simp only [List.length_map, List.length_range]
    rw [getD_map_range _ _ _ _ hi, if_neg (Nat.lt_irrefl _), getD_map_range _ _ _ _ hi,
      List.length_replicate]

theorem ellBefore_jj (M : MATRIX α) (i n : Nat) : (ellBefore M i n).jj = nzCount M i n := by
  unfold ellBefore
  rw [foldl_ellCell]
  exact Nat.zero_add _

theorem length_set_getD {β : Type} (a : List (List β)) (i : Nat) (row : List β)
    (h : row.length = (a.getD i []).length) : ((a.set i row).getD i []).length = row.length := by
  by_cases hi : i < a.length
  · rw [List.getD_eq_getElem _ _ (by simpa using hi), List.getElem_set_self]
  · rw [List.set_eq_of_length_le (by omega), h]

theorem ellBefore_row_length (M : MATRIX α) (i n : Nat) (hi : i < M.nrows) :
    ((ellBefore M i n).values.getD i []).length = compute_max_entries_per_row M ∧
    ((ellBefore M i n).indices.getD i []).length = compute_max_entries_per_row M := by
  obtain ⟨h1, h2⟩ := ellRows_untouched M i hi
  unfold ellBefore
  rw [foldl_ellCell]
  constructor
  · rw [length_set_getD _ _ _ (by rw [length_writeSeq]), length_writeSeq]
    exact h1
  · rw [length_set_getD _ _ _ (by rw [length_writeSeq]), length_writeSeq]
    exact h2

/-- C19: in the fill loop of `CreateELL`, whenever a cell `(i, j)` is nonzero, so
that `values[i][jj]` and `indices[i][jj]` are stored, the cursor `jj` is below
`max_entries_per_row`, which is the length of both rows at that moment; and when
row `i` is finished `jj` is `count(i)`, at most `max_entries_per_row`. -/
theorem C19_ELL_fill_stays_in_row (M : MATRIX α) (i : Nat) (hi : i < M.nrows) :
    (∀ j, j < M.ncols → M.mel i j ≠ 0 →
      (ellBefore M i j).jj < compute_max_entries_per_row M ∧
      (ellBefore M i j).jj < ((ellBefore M i j).values.getD i []).length ∧
      (ellBefore M i j).jj < ((ellBefore M i j).indices.getD i []).length) ∧
    (ellBefore M i M.ncols).jj = rowCount M i ∧
    (ellBefore M i M.ncols).jj ≤ compute_max_entries_per_row M := by
  have hle := rowCount_le_max M i hi
  refine ⟨?_, ?_, ?_⟩
  · intro j hj hnz
    obtain ⟨h1, h2⟩ := ellBefore_row_length M i j hi
    have hlt : nzCount M i j < compute_max_entries_per_row M := by
      have h3 : nzCount M i (j + 1) = nzCount M i j + 1 := by
        rw [nzCount_succ, if_pos hnz]
      have h4 := nzCount_mono M i (j + 1) M.ncols hj
      unfold rowCount at hle
      omega
    rw [h1, h2, ellBefore_jj]
    exact ⟨hlt, hlt, hlt⟩
  · rw [ellBefore_jj]; rfl
  · rw [ellBefore_jj]; exact hle

/-- Scenario 3, row `0`: the cursor is `1` when the cell `(0, 1)` is stored, below
the width `2`, and ends at `2`. -/
theorem C19_ELL_fill_stays_in_row_witness :
    (ellBefore exampleM 0 1).jj = 1 ∧ compute_max_entries_per_row exampleM = 2 ∧
    (ellBefore exampleM 0 exampleM.ncols).jj = rowCount exampleM 0 :=
  ⟨by decide, by decide, (C19_ELL_fill_stays_in_row exampleM 0 (by decide)).2.1⟩

end Passes

/-! ## The identity matrix -/

section Identity

variable {α : Type} [Zero α] [One α] [DecidableEq α]

theorem identity_mel_ne (h10 : (1 : α) ≠ 0) (n i j : Nat) :
    (identityMatrix α n).mel i j ≠ 0 ↔ i = j := by
  unfold identityMatrix
  by_cases h : i = j
  · simp [h, h10]
  · simp [h]

theorem identity_nzCols (h10 : (1 : α) ≠ 0) (n i m : Nat) :
    nzCols (identityMatrix α n) i m = if i < m then [i] else [] := by
  induction m with
  | zero => rfl
  | succ m ih =>
    rw [nzCols_succ, ih]
    by_cases h : i = m
    · subst h
      rw [if_pos ((identity_mel_ne h10 n i i).2 rfl), if_neg (Nat.lt_irrefl _),
        if_pos (Nat.lt_succ_self _)]
      rfl
    · rw [if_neg (fun hc => h ((identity_mel_ne h10 n i m).1 hc))]
      by_cases hlt : i < m
      · rw [if_pos hlt, if_pos (by omega)]
      · rw [if_neg hlt, if_neg (by omega)]

theorem identity_startCols (h10 : (1 : α) ≠ 0) (n i m : Nat) :
    startCols (identityMatrix α n) i m = if i < m then [i] else [] := by
  induction m with
  | zero => rfl
  | succ m ih =>
    rw [startCols_succ, ih]
    by_cases h : i = m
    · subst h
      have hst : i = 0 ∨ (identityMatrix α n).mel i (i - 1) = 0 := by
        by_cases h0 : i = 0
        · exact Or.inl h0
        · right
          by_contra hc
          have := (identity_mel_ne h10 n i (i - 1)).1 hc
          omega
      rw [if_pos ⟨(identity_mel_ne h10 n i i).2 rfl, hst⟩, if_neg (Nat.lt_irrefl _),
        if_pos (Nat.lt_succ_self _)]
      rfl
    · rw [if_neg (fun hc => h ((identity_mel_ne h10 n i m).1 hc.1))]
      by_cases hlt : i < m
      · rw [if_pos hlt, if_pos (by omega)]
      · rw [if_neg hlt, if_neg (by omega)]

theorem identity_nzCount (h10 : (1 : α) ≠ 0) (n i m : Nat) :
    nzCount (identityMatrix α n) i m = if i < m then 1 else 0 := by
  rw [nzCount_eq, identity_nzCols h10]
  split <;> rfl

theorem identity_rowCount (h10 : (1 : α) ≠ 0) (n i : Nat) (hi : i < n) :
    rowCount (identityMatrix α n) i = 1 := by
  have : (identityMatrix α n).ncols = n := rfl
  rw [rowCount, identity_nzCount h10, this, if_pos hi]

theorem identity_nzBefore (h10 : (1 : α) ≠ 0) (n k : Nat) (hk : k ≤ n) :
    nzBefore (identityMatrix α n) k = k := by
  induction k with
  | zero => rfl
  | succ k ih => rw [nzBefore_succ, ih (by omega), identity_rowCount h10 n k (by omega)]

theorem identity_blocksBefore (h10 : (1 : α) ≠ 0) (n k : Nat) (hk : k ≤ n) :
    blocksBefore (identityMatrix α n) k = k := by
  have hc : (identityMatrix α n).ncols = n := rfl
  induction k with
  | zero => rfl
  | succ k ih =>
    rw [blocksBefore_succ, ih (by omega), identity_startCols h10, hc, if_pos (by omega)]
    rfl

theorem flatMap_range_congr {β : Type} (f g : Nat → List β) (n : Nat)
    (h : ∀ i, i < n → f i = g i) : (List.range n).flatMap f = (List.range n).flatMap g := by
  rw [List.flatMap_def, List.flatMap_def]
  congr 1
  apply List.map_congr_left
  intro i hi
  exact h i (List.mem_range.1 hi)

theorem flatMap_range_const {β : Type} (v : β) (n : Nat) :
    (List.range n).flatMap (fun _ => [v]) = List.replicate n v := by
  induction n with
  | zero => rfl
  | succ n ih =>
    rw [List.range_succ, List.flatMap_append, ih, List.flatMap_singleton,
      List.replicate_succ']

theorem map_range_id (f : Nat → Nat) (n : Nat) (h : ∀ i, i < n → f i = i) :
    (List.range n).map f = List.range n := by
  have : (List.range n).map f = (List.range n).map id := by
    apply List.map_congr_left
    intro i hi
    exact h i (List.mem_range.1 hi)
  rw [this, List.map_id]

/-- C13: for `n ≥ 1` (and `1 ≠ 0` in the type of the cells) the `n`-by-`n`
identity matrix with `nnz = n` gives a BCRS with `nblocks = n`,
`rowPtr = [0,1,...,n]`, `colInd = [0,1,...,n-1]`, `nnzPtr = [0,1,...,n]` and
`value = [1,...,1]`, and an ELL with `max_entries_per_row = 1`, `indices[i] = [i]`
and `values[i] = [1]` for every row `i`. -/
theorem C13_identity_layout (h10 : (1 : α) ≠ 0) (n : Nat) (hn : 1 ≤ n) :
    (CreateBCRS (identityMatrix α n)).nblocks = n ∧
    (CreateBCRS (identityMatrix α n)).rowPtr = List.range (n + 1) ∧
    (CreateBCRS (identityMatrix α n)).colInd = List.range n ∧
    (CreateBCRS (identityMatrix α n)).nnzPtr = List.range (n + 1) ∧
    (CreateBCRS (identityMatrix α n)).value = List.replicate n 1 ∧
    (CreateELL (identityMatrix α n)).max_entries_per_row = 1 ∧
    (CreateELL (identityMatrix α n)).indices = (List.range n).map (fun i : Nat => [(i : Int)]) ∧
    (CreateELL (identityMatrix α n)).values = List.replicate n [1] := by
  have hr : (identityMatrix α n).nrows = n := rfl
  have hc : (identityMatrix α n).ncols = n := rfl
  have hz : (identityMatrix α n).nnz = n := rfl
  have hW : compute_max_entries_per_row (identityMatrix α n) = 1 := by
    obtain ⟨i, hi, he⟩ := (max_entries_spec (identityMatrix α n) n).2.1 hn
    have : compute_max_entries_per_row (identityMatrix α n) = rowCount (identityMatrix α n) i :=
      he
    rw [this, identity_rowCount h10 n i hi]
  have hstarts : allStarts (identityMatrix α n) n = List.range n := by
    unfold allStarts
    rw [flatMap_range_congr _ (fun i => [i]) n (fun i hi => by
      rw [identity_startCols h10, hc, if_pos hi]), List.flatMap_singleton']
  have hptrs : allPtrs (identityMatrix α n) n = List.range n := by
    unfold allPtrs
    rw [flatMap_range_congr _ (fun i => [i]) n (fun i hi => by
      rw [identity_startCols h10, hc, if_pos hi, List.map_singleton, nzPreceding,
        identity_nzBefore h10 n i (by omega), identity_nzCount h10, if_neg (Nat.lt_irrefl _)]
      rfl), List.flatMap_singleton']
  have hvals : allVals (identityMatrix α n) n = List.replicate n 1 := by
    unfold allVals
    rw [flatMap_range_congr _ (fun _ => [1]) n (fun i hi => by
      rw [identity_nzCols h10, hc, if_pos hi, List.map_singleton]
      simp [identityMatrix]), flatMap_range_const]
  have hnnz : (identityMatrix α n).nnz = trueNnz (identityMatrix α n) := by
    rw [trueNnz_eq, hr, identity_nzBefore h10 n n (Nat.le_refl _)]
    rfl
  refine ⟨?_, ?_, ?_, ?_, ?_, hW, ?_, ?_⟩
  · rw [CreateBCRS_nblocks, hr, identity_blocksBefore h10 n n (Nat.le_refl _)]
  · rw [CreateBCRS_rowPtr, hr]
    exact map_range_id _ _ (fun i hi => identity_blocksBefore h10 n i (by omega))
  · rw [CreateBCRS_colInd, hr, hstarts]
  · rw [CreateBCRS_nnzPtr, hr, hptrs, hz, List.range_succ]
  · rw [CreateBCRS_value _ hnnz, hr, hvals]
  · rw [CreateELL_indices, hr, hW]
    apply List.map_congr_left
    intro i hi
    rw [identity_nzCols h10, hc, if_pos (List.mem_range.1 hi)]
    rfl
  · rw [CreateELL_values, hr, hW, ← map_const_range n ([1] : List α)]
    apply List.map_congr_left
    intro i hi
    rw [identity_nzCols h10, hc, if_pos (List.mem_range.1 hi)]
    simp [identityMatrix, writeSeq]

/-- Scenario 1, the 3-by-3 identity over the integers: `rowPtr = [0,1,2,3]` and
`indices = [[0],[1],[2]]`. -/
theorem C13_identity_layout_witness :
    (CreateBCRS (identityMatrix Int 3)).rowPtr = [0, 1, 2, 3] ∧
    (CreateELL (identityMatrix Int 3)).indices = [[0], [1], [2]] ∧
    (CreateBCRS (identityMatrix Int 3)).nblocks = 3 :=
  ⟨by decide, by decide, (C13_identity_layout (by decide) 3 (by decide)).1⟩

end Identity

/-! ## The accesses of the kernels -/

section TracedFacts

variable {α : Type} [Zero α] [Add α] [Mul α]

theorem foldl_with_trace {σ ι ε : Type} (g : σ → ι → σ) (h : ι → List ε)
    (step : σ × List ε → ι → σ × List ε) (hstep : ∀ s i, step s i = (g s.1 i, s.2 ++ h i))
    (l : List ι) : ∀ s, l.foldl step s = (l.foldl g s.1, s.2 ++ l.flatMap h) := by
  induction l with
  | nil => intro s; simp
  | cons i l ih =>
    intro s
    rw [List.foldl_cons, ih, hstep, List.foldl_cons, List.flatMap_cons, List.append_assoc]

theorem blockBCRS_traced_inner (value x : List α) (sc : Nat) :
    ∀ (L P tt : Nat) (t : α) (acc : List (Buf × Nat)),
      (List.range' P L).foldl
        (fun (q : α × Nat × List (Buf × Nat)) k =>
          (q.1 + value.getD k 0 * x.getD (sc + q.2.1) 0, q.2.1 + 1,
            q.2.2 ++ [(Buf.value, k), (Buf.x, sc + q.2.1)])) (t, tt, acc)
      = (((List.range' P L).foldl
            (fun (p : α × Nat) k => (p.1 + value.getD k 0 * x.getD (sc + p.2) 0, p.2 + 1))
            (t, tt)).1,
          ((List.range' P L).foldl
            (fun (p : α × Nat) k => (p.1 + value.getD k 0 * x.getD (sc + p.2) 0, p.2 + 1))
            (t, tt)).2,
          acc ++ (List.zip (List.range' P L) (List.range' (sc + tt) L)).flatMap
            (fun p => [(Buf.value, p.1), (Buf.x, p.2)])) := by
  intro L
  induction L with
  | zero => intro P tt t acc; simp
  | succ L ih =>
    intro P tt t acc
    rw [List.range'_succ, List.range'_succ, List.foldl_cons, List.foldl_cons, ih,
      List.zip_cons_cons, List.flatMap_cons, List.append_assoc,
      show sc + (tt + 1) = sc + tt + 1 by omega]

theorem blockBCRS_traced_eq (c : BCRS α) (x : List α) (s : α × List (Buf × Nat)) (j : Nat) :
    blockBCRS_traced c x s j = (blockBCRS c x s.1 j, s.2 ++ blockAccesses c j) := by
  unfold blockBCRS_traced blockBCRS blockAccesses
  simp only [blockBCRS_traced_inner, Nat.add_zero, List.append_assoc]

theorem rowBCRS_traced_eq (c : BCRS α) (x : List α) (acc : List (Buf × Nat)) (i : Nat) :
    rowBCRS_traced c x acc i
      = (rowBCRS c x i, acc ++ ([(Buf.rowPtr, i), (Buf.rowPtr, i + 1)] ++
          (List.range' (c.rowPtr.getD i 0)
            (c.rowPtr.getD (i + 1) 0 - c.rowPtr.getD i 0)).flatMap (blockAccesses c))) := by
  unfold rowBCRS_traced rowBCRS
  rw [foldl_with_trace (blockBCRS c x) (blockAccesses c) _ (blockBCRS_traced_eq c x),
    List.append_assoc]

/-- The instrumented kernel returns the buffer of `MultiplyBCRS` and the list
`allAccesses`, which depends on the representation only. -/
theorem MultiplyBCRS_traced_eq (c : BCRS α) (x r : List α) :
    MultiplyBCRS_traced c x r = (MultiplyBCRS c x r, allAccesses c) := by
  unfold MultiplyBCRS_traced MultiplyBCRS allAccesses
  rw [foldl_with_trace (fun r i => r.set i (rowBCRS c x i)) (rowAccesses c) _ (by
    intro s i
    rw [rowBCRS_traced_eq]
    simp only [rowAccesses, List.append_assoc])]

theorem rowELL_traced_eq (e : ELL α) (x : List α) (loads : List Int) (i : Nat) :
    rowELL_traced e x loads i
      = (rowELL e x i, loads ++ (List.range e.max_entries_per_row).flatMap (fun j =>
          if (e.indices.getD i []).getD j 0 ≥ 0 then [(e.indices.getD i []).getD j 0]
          else [])) := by
  unfold rowELL_traced rowELL
  rw [foldl_with_trace
    (fun t j =>
      if (e.indices.getD i []).getD j 0 ≥ 0 then
        t + (e.values.getD i []).getD j 0 * x.getD ((e.indices.getD i []).getD j 0).toNat 0
      else t)
    (fun j => if (e.indices.getD i []).getD j 0 ≥ 0 then [(e.indices.getD i []).getD j 0]
      else []) _ (by
    intro s j
    by_cases h : (e.indices.getD i []).getD j 0 ≥ 0
    · simp only [if_pos h]
    · simp only [if_neg h, List.append_nil])]

/-- The instrumented kernel returns the buffer of `MultiplyELL` and the list
`xLoadsELL`, which depends on the representation only. -/
theorem MultiplyELL_traced_eq (e : ELL α) (x r : List α) :
    MultiplyELL_traced e x r = (MultiplyELL e x r, xLoadsELL e) := by
  unfold MultiplyELL_traced MultiplyELL xLoadsELL
  rw [foldl_with_trace (fun r i => r.set i (rowELL e x i))
    (fun i => (List.range e.max_entries_per_row).flatMap (fun j =>
      if (e.indices.getD i []).getD j 0 ≥ 0 then [(e.indices.getD i []).getD j 0] else [])) _
    (by
      intro s i
      rw [rowELL_traced_eq])]
  simp

end TracedFacts

/-! ## The kernels on an arbitrary representation -/

section ArbitraryRep

theorem mem_zip_range' (L : Nat) : ∀ (a b : Nat) (p : Nat × Nat),
    p ∈ List.zip (List.range' a L) (List.range' b L) ↔ ∃ t, t < L ∧ p = (a + t, b + t) := by
  induction L with
  | zero =>
    intro a b p
    constructor
    · intro h; simp at h
    · rintro ⟨t, ht, _⟩; exact absurd ht (Nat.not_lt_zero _)
  | succ L ih =>
    intro a b p
    rw [List.range'_succ, List.range'_succ, List.zip_cons_cons, List.mem_cons, ih]
    constructor
    · rintro (h | ⟨t, ht, h⟩)
      · exact ⟨0, Nat.succ_pos _, h⟩
      · refine ⟨t + 1, by omega, ?_⟩
        rw [h, show a + 1 + t = a + (t + 1) by omega, show b + 1 + t = b + (t + 1) by omega]
    · rintro ⟨t, ht, h⟩
      cases t with
      | zero => exact Or.inl h
      | succ t =>
        refine Or.inr ⟨t, by omega, ?_⟩
        rw [h, show a + 1 + t = a + (t + 1) by omega, show b + 1 + t = b + (t + 1) by omega]

/-- The subscripts at which `MultiplyBCRS` loads `x`. -/
theorem mem_allAccesses_x {α : Type} [Zero α] [Add α] [Mul α] (c : BCRS α) (k : Nat) :
    (Buf.x, k) ∈ allAccesses c ↔
      ∃ i b t, i < c.nrows ∧ c.rowPtr.getD i 0 ≤ b ∧ b < c.rowPtr.getD (i + 1) 0 ∧
        t < c.nnzPtr.getD (b + 1) 0 - c.nnzPtr.getD b 0 ∧ k = c.colInd.getD b 0 + t := by
  constructor
  · intro h
    unfold allAccesses at h
    rcases List.mem_append.1 h with h | h
    · obtain ⟨p, _, hp⟩ := List.mem_map.1 h
      simp at hp
    · obtain ⟨i, hi, h⟩ := List.mem_flatMap.1 h
      unfold rowAccesses at h
      rcases List.mem_append.1 h with h | h
      · rcases List.mem_append.1 h with h | h
        · simp at h
        · obtain ⟨b, hb, h⟩ := List.mem_flatMap.1 h
          rw [List.mem_range'_1] at hb
          unfold blockAccesses at h
          rcases List.mem_append.1 h with h | h
          · simp at h
          · obtain ⟨p, hp, h⟩ := List.mem_flatMap.1 h
            rw [mem_zip_range'] at hp
            obtain ⟨t, ht, rfl⟩ := hp
            simp only [List.mem_cons, Prod.mk.injEq, List.mem_singleton, List.not_mem_nil,
              or_false] at h
            rcases h with h | h
            · exact absurd h.1 (by decide)
            · exact ⟨i, b, t, List.mem_range.1 hi, hb.1, by omega, ht, h.2⟩
      · simp at h
  · rintro ⟨i, b, t, hi, hb1, hb2, ht, rfl⟩
    unfold allAccesses
    apply List.mem_append_right
    refine List.mem_flatMap.2 ⟨i, List.mem_range.2 hi, ?_⟩
    unfold rowAccesses
    apply List.mem_append_left
    apply List.mem_append_right
    refine List.mem_flatMap.2 ⟨b, by rw [List.mem_range'_1]; omega, ?_⟩
    unfold blockAccesses
    apply List.mem_append_right
    refine List.mem_flatMap.2 ⟨(c.nnzPtr.getD b 0 + t, c.colInd.getD b 0 + t),
      (mem_zip_range' _ _ _ _).2 ⟨t, ht, rfl⟩, ?_⟩
    simp

/-- The subscripts at which `MultiplyELL` loads `x`. -/
theorem mem_xLoadsELL {α : Type} [Zero α] [Add α] [Mul α] (e : ELL α) (k : Int) :
    k ∈ xLoadsELL e ↔
      ∃ i j, i < e.nrows ∧ j < e.max_entries_per_row ∧ 0 ≤ (e.indices.getD i []).getD j 0 ∧
        k = (e.indices.getD i []).getD j 0 := by
  unfold xLoadsELL
  constructor
  · intro h
    obtain ⟨i, hi, h⟩ := List.mem_flatMap.1 h
    obtain ⟨j, hj, h⟩ := List.mem_flatMap.1 h
    by_cases hge : (e.indices.getD i []).getD j 0 ≥ 0
    · rw [if_pos hge, List.mem_singleton] at h
      exact ⟨i, j, List.mem_range.1 hi, List.mem_range.1 hj, hge, h⟩
    · rw [if_neg hge] at h
      exact absurd h (List.not_mem_nil _)
  · rintro ⟨i, j, hi, hj, hge, rfl⟩
    refine List.mem_flatMap.2 ⟨i, List.mem_range.2 hi, ?_⟩
    refine List.mem_flatMap.2 ⟨j, List.mem_range.2 hj, ?_⟩
    rw [if_pos hge]
    exact List.mem_singleton.2 rfl

/-- C12, as the code has it: neither kernel checks a subscript of `x` or can
report an error. For every BCRS `c`, every ELL `e` and all vectors and buffers,
the instrumented kernel returns the buffer of the kernel; `MultiplyBCRS` loads
`x[k]` exactly for the `k = colInd[b] + t` of the rows `i < nrows`, the blocks
`b` in `[rowPtr[i], rowPtr[i+1])` and the offsets `t < nnzPtr[b+1] - nnzPtr[b]`;
`MultiplyELL` loads `x[k]` exactly for the entries `k = indices[i][j] ≥ 0` of the
rows `i < nrows` and the slots `j < max_entries_per_row`. The length of `x` is
in neither condition, and the whole list of accesses is the same for any other
`x` and `r`: a shorter `x` removes none of the loads. -/
theorem C12_kernels_load_x_unchecked {α : Type} [Zero α] [Add α] [Mul α] (c : BCRS α)
    (e : ELL α) (x x' r r' : List α) :
    (MultiplyBCRS_traced c x r).1 = MultiplyBCRS c x r ∧
    (∀ k, (Buf.x, k) ∈ (MultiplyBCRS_traced c x r).2 ↔
      ∃ i b t, i < c.nrows ∧ c.rowPtr.getD i 0 ≤ b ∧ b < c.rowPtr.getD (i + 1) 0 ∧
        t < c.nnzPtr.getD (b + 1) 0 - c.nnzPtr.getD b 0 ∧ k = c.colInd.getD b 0 + t) ∧
    (MultiplyBCRS_traced c x r).2 = (MultiplyBCRS_traced c x' r').2 ∧
    (MultiplyELL_traced e x r).1 = MultiplyELL e x r ∧
    (∀ k, k ∈ (MultiplyELL_traced e x r).2 ↔
      ∃ i j, i < e.nrows ∧ j < e.max_entries_per_row ∧
        0 ≤ (e.indices.getD i []).getD j 0 ∧ k = (e.indices.getD i []).getD j 0) ∧
    (MultiplyELL_traced e x r).2 = (MultiplyELL_traced e x' r').2 := by
  rw [MultiplyBCRS_traced_eq, MultiplyBCRS_traced_eq, MultiplyELL_traced_eq,
    MultiplyELL_traced_eq]
  exact ⟨rfl, mem_allAccesses_x c, rfl, rfl, mem_xLoadsELL e, rfl⟩

/-- C12 fails on the code: on the representations of scenario 3 (largest column
`2`) and the vector `x = [5]` of length `1`, both kernels load `x` at the
subscript `2`, outside `x`, and the call ends with its output buffer; nothing is
detected. -/
theorem C12_out_of_range_guard_counterexample :
    ([5] : List Int).length ≤ 2 ∧
    (Buf.x, 2) ∈ (MultiplyBCRS_traced (CreateBCRS exampleM) [5] [7, 7, 7]).2 ∧
    (MultiplyBCRS_traced (CreateBCRS exampleM) [5] [7, 7, 7]).1.length = 3 ∧
    (2 : Int) ∈ (MultiplyELL_traced (CreateELL exampleM) [5] [7, 7]).2 ∧
    (MultiplyELL_traced (CreateELL exampleM) [5] [7, 7]).1.length = 2 := by
  decide

variable {α : Type} [Semiring α]

theorem blockBCRS_inner_sum (value x : List α) (sc : Nat) :
    ∀ (L P tt : Nat) (t : α),
      (List.range' P L).foldl
        (fun (p : α × Nat) k => (p.1 + value.getD k 0 * x.getD (sc + p.2) 0, p.2 + 1)) (t, tt)
      = (t + ∑ u in Finset.range L, value.getD (P + u) 0 * x.getD (sc + tt + u) 0, tt + L) := by
  intro L
  induction L with
  | zero => intro P tt t; simp
  | succ L ih =>
    intro P tt t
    rw [List.range'_succ, List.foldl_cons, ih, Finset.sum_range_succ']
    simp only [Nat.add_zero]
    have hs : ∑ u in Finset.range L, value.getD (P + 1 + u) 0 * x.getD (sc + (tt + 1) + u) 0
        = ∑ u in Finset.range L, value.getD (P + (u + 1)) 0 * x.getD (sc + tt + (u + 1)) 0 := by
      apply Finset.sum_congr rfl
      intro u _
      rw [show P + 1 + u = P + (u + 1) by omega,
        show sc + (tt + 1) + u = sc + tt + (u + 1) by omega]
    rw [hs, add_assoc, add_comm (value.getD P 0 * x.getD (sc + tt) 0),
      show tt + 1 + L = tt + (L + 1) by omega]

theorem blockBCRS_eq_sum (c : BCRS α) (x : List α) (t : α) (j : Nat) :
    blockBCRS c x t j
      = t + ∑ k in Finset.Ico (c.nnzPtr.getD j 0) (c.nnzPtr.getD (j + 1) 0),
          c.value.getD k 0 * x.getD (c.colInd.getD j 0 + (k - c.nnzPtr.getD j 0)) 0 := by
  unfold blockBCRS
  simp only [blockBCRS_inner_sum, Nat.add_zero]
  rw [Finset.sum_Ico_eq_sum_range]
  congr 1
  apply Finset.sum_congr rfl
  intro u _
  rw [Nat.add_sub_cancel_left]

theorem foldl_add_range' (step : α → Nat → α) (g : Nat → α)
    (h : ∀ t j, step t j = t + g j) : ∀ (len lo : Nat) (t0 : α),
      (List.range' lo len).foldl step t0 = t0 + ∑ u in Finset.range len, g (lo + u) := by
  intro len
  induction len with
  | zero => intro lo t0; simp
  | succ len ih =>
    intro lo t0
    rw [List.range'_succ, List.foldl_cons, ih, h, Finset.sum_range_succ']
    have hs : ∑ u in Finset.range len, g (lo + 1 + u)
        = ∑ u in Finset.range len, g (lo + (u + 1)) := by
      apply Finset.sum_congr rfl
      intro u _
      rw [show lo + 1 + u = lo + (u + 1) by omega]
    rw [hs, Nat.add_zero, add_assoc, add_comm (g lo)]

theorem rowBCRS_eq_sum (c : BCRS α) (x : List α) (i : Nat) :
    rowBCRS c x i
      = ∑ b in Finset.Ico (c.rowPtr.getD i 0) (c.rowPtr.getD (i + 1) 0),
          ∑ k in Finset.Ico (c.nnzPtr.getD b 0) (c.nnzPtr.getD (b + 1) 0),
            c.value.getD k 0 * x.getD (c.colInd.getD b 0 + (k - c.nnzPtr.getD b 0)) 0 := by
  unfold rowBCRS
  rw [foldl_add_range' (blockBCRS c x) _ (blockBCRS_eq_sum c x), zero_add,
    Finset.sum_Ico_eq_sum_range]

/-- C16: for every BCRS `c` (built by `CreateBCRS` or not), every `x` and every
row `i < nrows` of an output buffer of at least `max(nrows, ncols)` cells (the
ones the kernel clears and stores to), `MultiplyBCRS` stores in `r[i]` the sum over the blocks `b` in `[rowPtr[i], rowPtr[i+1])` of the
sum over `k` in `[nnzPtr[b], nnzPtr[b+1])` of `value[k] * x[colInd[b] + (k -
nnzPtr[b])]`: the offset restarts at `0` in every block, and a block with
`nnzPtr[b+1] ≤ nnzPtr[b]` leaves the running sum as it is. -/
theorem C16_BCRS_kernel_formula (c : BCRS α) (x r : List α) (i : Nat) (hi : i < c.nrows)
    (hr : max c.nrows c.ncols ≤ r.length) :
    (MultiplyBCRS c x r).getD i 0
      = ∑ b in Finset.Ico (c.rowPtr.getD i 0) (c.rowPtr.getD (i + 1) 0),
          ∑ k in Finset.Ico (c.nnzPtr.getD b 0) (c.nnzPtr.getD (b + 1) 0),
            c.value.getD k 0 * x.getD (c.colInd.getD b 0 + (k - c.nnzPtr.getD b 0)) 0 ∧
    ∀ (t : α) (b : Nat), c.nnzPtr.getD (b + 1) 0 ≤ c.nnzPtr.getD b 0 → blockBCRS c x t b = t := by
  constructor
  · rw [MultiplyBCRS_getD c x r i 0 hi (Nat.le_trans (Nat.le_max_left _ _) hr),
      rowBCRS_eq_sum]
  · intro t b hb
    rw [blockBCRS_eq_sum, Finset.Ico_eq_empty (by omega), Finset.sum_empty, add_zero]

/-- The hand-made BCRS `exampleBCRS`: the kernel gives `4 * x[1] = 12`, the sum
of the formula. -/
theorem C16_BCRS_kernel_formula_witness :
    MultiplyBCRS exampleBCRS [2, 3] [7, 7] = [12, 0] ∧
    (MultiplyBCRS exampleBCRS [2, 3] [7, 7]).getD 0 0
      = ∑ b in Finset.Ico (exampleBCRS.rowPtr.getD 0 0) (exampleBCRS.rowPtr.getD (0 + 1) 0),
          ∑ k in Finset.Ico (exampleBCRS.nnzPtr.getD b 0) (exampleBCRS.nnzPtr.getD (b + 1) 0),
            exampleBCRS.value.getD k 0
              * ([2, 3] : List Int).getD
                  (exampleBCRS.colInd.getD b 0 + (k - exampleBCRS.nnzPtr.getD b 0)) 0 :=
  ⟨by decide, (C16_BCRS_kernel_formula exampleBCRS [2, 3] [7, 7] 0 (by decide) (by decide)).1⟩

theorem rowELL_eq_sum (e : ELL α) (x : List α) (i : Nat) :
    rowELL e x i
      = ∑ j in (Finset.range e.max_entries_per_row).filter
            (fun j => 0 ≤ (e.indices.getD i []).getD j 0),
          (e.values.getD i []).getD j 0 * x.getD ((e.indices.getD i []).getD j 0).toNat 0 := by
  unfold rowELL
  rw [Finset.sum_filter]
  generalize e.max_entries_per_row = W
  induction W with
  | zero => simp
  | succ W ih =>
    rw [foldl_range_succ, ih, Finset.sum_range_succ]
    by_cases h : (e.indices.getD i []).getD W 0 ≥ 0
    · rw [if_pos h, if_pos h]
    · rw [if_neg h, if_neg h, add_zero]

theorem rowELL_congr (e e' : ELL α) (x : List α) (i : Nat) (hI : e'.indices = e.indices)
    (hW : e'.max_entries_per_row = e.max_entries_per_row)
    (hv : ∀ j, 0 ≤ (e.indices.getD i []).getD j 0 →
      (e'.values.getD i []).getD j 0 = (e.values.getD i []).getD j 0) :
    rowELL e' x i = rowELL e x i := by
  unfold rowELL
  rw [hI, hW]
  congr 1
  funext t j
  by_cases h : (e.indices.getD i []).getD j 0 ≥ 0
  · rw [if_pos h, if_pos h, hv j h]
  · rw [if_neg h, if_neg h]

/-- C17: for every ELL `e` (built by `CreateELL` or not) and every `x`, every
subscript at which `MultiplyELL` loads `x` is an entry `indices[i][j] ≥ 0` of a
slot `j < max_entries_per_row` of a row `i < nrows`; replacing the values of the
slots with `indices[i][j] < 0` by anything leaves the result unchanged; and
`r[i]` is the sum of `values[i][j] * x[indices[i][j]]` over the slots with
`indices[i][j] ≥ 0`. -/
theorem C17_ELL_padding_never_read (e : ELL α) (x r : List α) :
    (MultiplyELL_traced e x r).1 = MultiplyELL e x r ∧
    (∀ k ∈ (MultiplyELL_traced e x r).2, 0 ≤ k ∧ ∃ i j, i < e.nrows ∧
      j < e.max_entries_per_row ∧ k = (e.indices.getD i []).getD j 0) ∧
    (∀ e' : ELL α, e'.indices = e.indices → e'.nrows = e.nrows →
      e'.max_entries_per_row = e.max_entries_per_row →
      (∀ i j, 0 ≤ (e.indices.getD i []).getD j 0 →
        (e'.values.getD i []).getD j 0 = (e.values.getD i []).getD j 0) →
      MultiplyELL e' x r = MultiplyELL e x r) ∧
    (∀ i, i < e.nrows → i < r.length →
      (MultiplyELL e x r).getD i 0
        = ∑ j in (Finset.range e.max_entries_per_row).filter
              (fun j => 0 ≤ (e.indices.getD i []).getD j 0),
            (e.values.getD i []).getD j 0
              * x.getD ((e.indices.getD i []).getD j 0).toNat 0) := by
  refine ⟨?_, ?_, ?_, ?_⟩
  · rw [MultiplyELL_traced_eq]
  · intro k hk
    rw [MultiplyELL_traced_eq] at hk
    simp only [xLoadsELL, List.mem_flatMap, List.mem_range] at hk
    obtain ⟨i, hi, j, hj, hm⟩ := hk
    by_cases h : (e.indices.getD i []).getD j 0 ≥ 0
    · rw [if_pos h, List.mem_singleton] at hm
      exact ⟨by rw [hm]; exact h, i, j, hi, hj, hm⟩
    · rw [if_neg h] at hm
      exact absurd hm (List.not_mem_nil _)
  · intro e' hI hn hW hv
    unfold MultiplyELL
    rw [hn]
    congr 1
    funext r i
    rw [rowELL_congr e e' x i hI hW (hv i)]
  · intro i hi hr
    rw [getD_MultiplyELL, if_pos ⟨hi, hr⟩, rowELL_eq_sum]

end ArbitraryRep

/-! ## The accesses of `MultiplyBCRS` on a built representation -/

section InRange

variable {α : Type} [Zero α] [DecidableEq α]

theorem nzBefore_mono (M : MATRIX α) (a b : Nat) (hab : a ≤ b) :
    nzBefore M a ≤ nzBefore M b := by
  induction hab with
  | refl => exact Nat.le_refl _
  | step _ ih => rw [nzBefore_succ]; omega

/-- The bounds of every subscript `MultiplyBCRS` forms for a row of a built
representation. -/
theorem built_row_bounds (M : MATRIX α) (hnnz : M.nnz = trueNnz M) (i : Nat)
    (hi : i < M.nrows) :
    (CreateBCRS M).rowPtr.getD (i + 1) 0 ≤ (CreateBCRS M).nblocks ∧
    ∀ j, (CreateBCRS M).rowPtr.getD i 0 ≤ j → j < (CreateBCRS M).rowPtr.getD (i + 1) 0 →
      j < (CreateBCRS M).nblocks ∧ j + 1 ≤ (CreateBCRS M).nblocks ∧
      ∀ k, (CreateBCRS M).nnzPtr.getD j 0 ≤ k → k < (CreateBCRS M).nnzPtr.getD (j + 1) 0 →
        k < M.nnz ∧
        (CreateBCRS M).colInd.getD j 0 + (k - (CreateBCRS M).nnzPtr.getD j 0) < M.ncols := by
  have hle : (CreateBCRS M).rowPtr.getD (i + 1) 0 ≤ (CreateBCRS M).nblocks := by
    rw [rowPtr_getD M (i + 1) (by omega), CreateBCRS_nblocks]
    exact blocksBefore_mono M _ _ hi
  refine ⟨hle, ?_⟩
  intro j hlo hhi
  refine ⟨by omega, by omega, ?_⟩
  intro k hk1 hk2
  obtain ⟨hq, hb⟩ := block_in_row M i j hi hlo hhi
  obtain ⟨h1, h2, h3, _⟩ := CreateBCRS_block M hnnz i _ hi hq
  rw [← hb] at h1 h2 h3
  obtain ⟨_, m2, _, _, _⟩ := runs_maximal M i _ (getD_runs_mem M i _ hq)
  rw [h2] at hk1
  rw [h3] at hk2
  have ht : k - nzPreceding M i ((runs M i).getD (j - blocksBefore M i) (0, 0)).1
      < ((runs M i).getD (j - blocksBefore M i) (0, 0)).2 := by omega
  obtain ⟨hlt, _⟩ := getD_nzCols_run M i _ _ hq ht
  have hnb := nzBefore_mono M (i + 1) M.nrows hi
  rw [nzBefore_succ, ← trueNnz_eq, ← hnnz] at hnb
  rw [h1, h2]
  unfold nzPreceding at hk1 hk2 ht hlt ⊢
  constructor
  · omega
  · omega

end InRange

section InRangeKernel

variable {α : Type} [Zero α] [Add α] [Mul α] [DecidableEq α]

/-- C20: for a matrix with a consistent `nnz`, a vector `x` of length `ncols`
and an output buffer of length at least `max(nrows, ncols)`, every access that
`MultiplyBCRS(CreateBCRS(M), x, r)` makes is inside its buffer; in particular,
for every row `i`, block `j` of the row and `k` of the block:
`rowPtr[i+1] ≤ nblocks`, `j < nblocks` (for `colInd[j]`), `j + 1 ≤ nblocks` (for
`nnzPtr[j+1]`), `k < nnz` (for `value[k]`) and `startCol + tt < ncols` (for
`x[startCol+tt]`), where the buffers have `nrows+1`, `nblocks`, `nblocks+1` and
`nnz` cells. -/
theorem C20_BCRS_kernel_in_range (M : MATRIX α) (hnnz : M.nnz = trueNnz M) (x : List α)
    (hx : x.length = M.ncols) (r : List α) (hr : max M.nrows M.ncols ≤ r.length) :
    (MultiplyBCRS_traced (CreateBCRS M) x r).1 = MultiplyBCRS (CreateBCRS M) x r ∧
    (∀ a ∈ (MultiplyBCRS_traced (CreateBCRS M) x r).2,
      a.2 < bufSize (CreateBCRS M) x r a.1) ∧
    ((CreateBCRS M).rowPtr.length = M.nrows + 1 ∧
      (CreateBCRS M).colInd.length = (CreateBCRS M).nblocks ∧
      (CreateBCRS M).nnzPtr.length = (CreateBCRS M).nblocks + 1 ∧
      (CreateBCRS M).value.length = M.nnz) ∧
    ∀ i, i < M.nrows →
      (CreateBCRS M).rowPtr.getD (i + 1) 0 ≤ (CreateBCRS M).nblocks ∧
      ∀ j, (CreateBCRS M).rowPtr.getD i 0 ≤ j → j < (CreateBCRS M).rowPtr.getD (i + 1) 0 →
        j < (CreateBCRS M).nblocks ∧ j + 1 ≤ (CreateBCRS M).nblocks ∧
        ∀ k, (CreateBCRS M).nnzPtr.getD j 0 ≤ k → k < (CreateBCRS M).nnzPtr.getD (j + 1) 0 →
          k < M.nnz ∧
          (CreateBCRS M).colInd.getD j 0 + (k - (CreateBCRS M).nnzPtr.getD j 0) < M.ncols := by
  have hrows : M.nrows ≤ r.length := Nat.le_trans (Nat.le_max_left _ _) hr
  have hcols : M.ncols ≤ r.length := Nat.le_trans (Nat.le_max_right _ _) hr
  have hlR : (CreateBCRS M).rowPtr.length = M.nrows + 1 := by
    rw [CreateBCRS_rowPtr]; simp
  have hlC : (CreateBCRS M).colInd.length = (CreateBCRS M).nblocks := by
    rw [CreateBCRS_colInd, length_allStarts, CreateBCRS_nblocks]
  have hlP : (CreateBCRS M).nnzPtr.length = (CreateBCRS M).nblocks + 1 := by
    rw [CreateBCRS_nnzPtr, CreateBCRS_nblocks, List.length_append, length_allPtrs]; rfl
  have hlV : (CreateBCRS M).value.length = M.nnz := by
    rw [CreateBCRS_value M hnnz, length_allVals, hnnz, trueNnz_eq]
  have hn : (CreateBCRS M).nrows = M.nrows := rfl
  have hc : (CreateBCRS M).ncols = M.ncols := rfl
  refine ⟨by rw [MultiplyBCRS_traced_eq], ?_, ⟨hlR, hlC, hlP, hlV⟩,
    fun i hi => built_row_bounds M hnnz i hi⟩
  intro a ha
  rw [MultiplyBCRS_traced_eq] at ha
  rcases List.mem_append.1 ha with ha | ha
  · obtain ⟨p, hp, rfl⟩ := List.mem_map.1 ha
    rw [hc] at hp
    have := List.mem_range.1 hp
    show p < r.length
    omega
  · obtain ⟨i, hi, ha⟩ := List.mem_flatMap.1 ha
    rw [hn] at hi
    have hi' : i < M.nrows := List.mem_range.1 hi
    obtain ⟨hb1, hb2⟩ := built_row_bounds M hnnz i hi'
    unfold rowAccesses at ha
    rcases List.mem_append.1 ha with ha | ha
    · rcases List.mem_append.1 ha with ha | ha
      · simp only [List.mem_cons, List.mem_singleton, List.not_mem_nil, or_false] at ha
        rcases ha with rfl | rfl
        · show i < (CreateBCRS M).rowPtr.length
          omega
        · show i + 1 < (CreateBCRS M).rowPtr.length
          omega
      · obtain ⟨j, hj, ha⟩ := List.mem_flatMap.1 ha
        rw [List.mem_range'_1] at hj
        have hj2 : j < (CreateBCRS M).rowPtr.getD (i + 1) 0 := by omega
        obtain ⟨hj3, hj4, hk⟩ := hb2 j hj.1 hj2
        unfold blockAccesses at ha
        rcases List.mem_append.1 ha with ha | ha
        · simp only [List.mem_cons, List.mem_singleton, List.not_mem_nil, or_false] at ha
          rcases ha with rfl | rfl | rfl
          · show j < (CreateBCRS M).colInd.length
            omega
          · show j < (CreateBCRS M).nnzPtr.length
            omega
          · show j + 1 < (CreateBCRS M).nnzPtr.length
            omega
        · obtain ⟨p, hp, ha⟩ := List.mem_flatMap.1 ha
          have hp' := List.of_mem_zip (a := p.1) (b := p.2) hp
          rw [List.mem_range'_1, List.mem_range'_1] at hp'
          obtain ⟨⟨hp1, hp2⟩, hp3, hp4⟩ := hp'
          have hlast := hk ((CreateBCRS M).nnzPtr.getD (j + 1) 0 - 1) (by omega) (by omega)
          have hfst := hk p.1 hp1 (by omega)
          simp only [List.mem_cons, List.mem_singleton, List.not_mem_nil, or_false] at ha
          rcases ha with rfl | rfl
          · show p.1 < (CreateBCRS M).value.length
            omega
          · show p.2 < x.length
            omega
    · simp only [List.mem_singleton] at ha
      subst ha
      show i < r.length
      omega

/-- Scenario 3 with `x` of length `3` and a buffer of length `3`: the kernel
makes `21` accesses, all inside their buffers. -/
theorem C20_BCRS_kernel_in_range_witness :
    exampleM.nnz = trueNnz exampleM ∧
    (MultiplyBCRS_traced (CreateBCRS exampleM) [1, 1, 1] [7, 7, 7]).2.length = 21 ∧
    ∀ a ∈ (MultiplyBCRS_traced (CreateBCRS exampleM) [1, 1, 1] [7, 7, 7]).2,
      a.2 < bufSize (CreateBCRS exampleM) ([1, 1, 1] : List Int) [7, 7, 7] a.1 :=
  ⟨by decide, by decide,
    (C20_BCRS_kernel_in_range exampleM (by decide) [1, 1, 1] (by decide) [7, 7, 7]
      (by decide)).2.1⟩

end InRangeKernel

end Blocked
